import Mathlib

/-!
Verification of the `iv` APL interpreter core (package `apl`): the value
model, the formatter (`fmt.go`), array parsing (`ScanRankArray` /
`ParseArray`), dictionaries (`object.go`), the integer kernel (`int.go`),
and the line-delimited external data reader exercised by `TestIv`.

Machine integers (Go `int`) are modelled as unbounded `Int`, matching the
specification's idealized number tower; Go strings are Lean `String`s
handled as `List Char`.
-/

namespace apl

/-! ### Decimal rendering and parsing of integers

`fmt.Sprintf("%v", i)` for a Go `int` and `strconv.Atoi` are standard
library functions; they are modelled here from the spec's number grammar
(`[¯]?DIGITS`, with `-` in the Go layer): decimal digits with an optional
leading sign. -/

/-- Digit extraction, most significant digit first, recursing on a budget
that the value never outruns (`n/10 < n` for positive `n`). -/
def natDecAux : Nat → Nat → List Char
  | 0, _ => []
  | _ + 1, 0 => []
  | fuel + 1, n + 1 =>
    natDecAux fuel ((n + 1) / 10) ++ [Nat.digitChar ((n + 1) % 10)]

/-- Decimal digit string of a natural number, most significant digit first.
Modelled from the spec: the default integer rendering is the direct digits. -/
def natDec (n : Nat) : List Char :=
  if n = 0 then ['0'] else natDecAux n n

/-- Modelled from the spec: Go's `%v` rendering of an `int` — decimal digits
with a leading `-` for negative values. -/
def intDec (i : Int) : List Char :=
  if i < 0 then '-' :: natDec i.natAbs else natDec i.toNat

/-- Parse a run of decimal digits (empty input fails).
Modelled from the spec: the digits part of the number grammar. -/
def parseDigits (cs : List Char) : Option Nat :=
  if cs = [] then none
  else if cs.all (fun c => c.isDigit) then
    some (cs.foldl (fun a c => 10 * a + (c.toNat - 48)) 0)
  else none

/-- Modelled from the spec: `strconv.Atoi` — optional sign then digits. -/
def atoi (cs : List Char) : Option Int :=
  match cs with
  | [] => none
  | c :: rest =>
    if c = '-' then (parseDigits rest).map (fun n => -(n : Int))
    else if c = '+' then (parseDigits rest).map (fun n => (n : Int))
    else (parseDigits (c :: rest)).map (fun n => (n : Int))

/-- `strings.Replace(s, "¯", "-", -1)`: replace every high minus by `-`
(single-character pattern, so a plain map). -/
def macronToDash (cs : List Char) : List Char :=
  cs.map (fun c => if c = '¯' then '-' else c)

/-- `strings.Replace(s, "-", "¯", 1)`: replace the first `-` (if any) by `¯`. -/
def replaceFirstDash : List Char → List Char
  | [] => []
  | c :: cs => if c = '-' then '¯' :: cs else c :: replaceFirstDash cs

/-- `ParseInt` from `int.go`: replace `¯` by `-`, then `Atoi`. -/
def ParseInt (cs : List Char) : Option Int :=
  atoi (macronToDash cs)

/-! ### The value model -/

/-- The runtime `Value` union, restricted to the kinds the repository
fragment constructs: integers (`Int`), strings (`String`), the empty array
(`EmptyArray`), general arrays (`MixedArray` with `Dims` and `Values`), and
dictionaries (`Dict` with ordered key list `K` and key/value map `M`; the Go
map is modelled as an association list). -/
inductive V where
  | int : Int → V
  | str : String → V
  | emptyArray : V
  | mixed : List Nat → List V → V
  | dict : List V → List (V × V) → V

mutual

/-- Go interface equality (`==` on `Value`s, used for map keys). Scalar
values compare by value; composite values are compared structurally here
(Go would panic on uncomparable keys such as slices — theorems about
dictionaries only use scalar keys, where the two notions agree). -/
def vEq : V → V → Bool
  | .int a, .int b => a == b
  | .str a, .str b => a == b
  | .emptyArray, .emptyArray => true
  | .mixed d1 v1, .mixed d2 v2 => d1 == d2 && vListEq v1 v2
  | .dict k1 m1, .dict k2 m2 => vListEq k1 k2 && vPairsEq m1 m2
  | _, _ => false

def vListEq : List V → List V → Bool
  | [], [] => true
  | a :: as, b :: bs => vEq a b && vListEq as bs
  | _, _ => false

def vPairsEq : List (V × V) → List (V × V) → Bool
  | [], [] => true
  | (k1, v1) :: as, (k2, v2) :: bs => vEq k1 k2 && vEq v1 v2 && vPairsEq as bs
  | _, _ => false

end

/-- A value is a scalar (comparable in Go without panic). -/
def V.isScalar : V → Prop
  | .int _ => True
  | .str _ => True
  | .emptyArray => True
  | _ => False

instance : DecidablePred V.isScalar := fun v => by
  cases v <;> simp [V.isScalar] <;> infer_instance

/-! ### Format configuration -/

/-- `reflect.Type` of a value, as used for the per-type format string map. -/
inductive TypeKey where
  | intT | strT | emptyT | mixedT | dictT
deriving DecidableEq, Repr

def typeOf : V → TypeKey
  | .int _ => .intT
  | .str _ => .strT
  | .emptyArray => .emptyT
  | .mixed _ _ => .mixedT
  | .dict _ _ => .dictT

/-- The `Format` configuration from `apl.go`: precision `PP` and the map
from types to printf format strings (a Go map, modelled as an association
list keyed by `TypeKey`). -/
structure Format where
  PP : Int
  Fmt : List (TypeKey × String)

/-- Go map read `f.Fmt[t]`: the zero value `""` when absent. -/
def Format.fmtFor (f : Format) (t : TypeKey) : String :=
  match f.Fmt.find? (fun p => p.1 = t) with
  | some p => p.2
  | none => ""

/-- Go map write `f.Fmt[t] = s`. -/
def Format.fmtSet (f : Format) (t : TypeKey) (s : String) : Format :=
  if (f.Fmt.find? (fun p => p.1 = t)).isSome then
    { f with Fmt := f.Fmt.map (fun p => if p.1 = t then (t, s) else p) }
  else
    { f with Fmt := f.Fmt ++ [(t, s)] }

/-! ### printf and `Int.String` -/

mutual

/-- Modelled from the spec: `fmt.Sprintf(format, i)` for a single integer
argument — literal characters are copied, `%v` and `%d` render the integer
in decimal, `%%` is a literal percent; other verbs produce Go's error
markers. (Repeated verbs would exhaust the single argument in Go; theorems
only use formats with exactly one verb.) -/
def sprintfInt : List Char → Int → List Char
  | [], _ => []
  | c :: rest, i =>
    if c = '%' then sprintfVerb rest i
    else c :: sprintfInt rest i

/-- The character after a `%`. -/
def sprintfVerb : List Char → Int → List Char
  | [], _ => ['%', '!']
  | c2 :: rest, i =>
    if c2 = 'v' ∨ c2 = 'd' then intDec i ++ sprintfInt rest i
    else if c2 = '%' then '%' :: sprintfInt rest i
    else '%' :: '!' :: c2 :: '(' :: 'I' :: 'N' :: 'V' :: ')' :: sprintfInt rest i

end

/-- `Int.String` from `int.go`: look up the registered format string for the
integer type; a format starting with `-` (and longer than one character) is
used with the `-` stripped and without minus rewriting; otherwise the first
`-` of the output is rewritten to `¯`.  An empty format defaults to `%v`.
(The length and first-byte checks are on the format's characters; the
repository's printf formats are ASCII.) -/
def intString (a : Format) (i : Int) : List Char :=
  if ((a.fmtFor .intT).toList).length > 1 ∧ ((a.fmtFor .intT).toList).headD ' ' = '-' then
    sprintfInt (if ((a.fmtFor .intT).toList).drop 1 = [] then ['%', 'v']
                else ((a.fmtFor .intT).toList).drop 1) i
  else
    replaceFirstDash (sprintfInt (if (a.fmtFor .intT).toList = [] then ['%', 'v']
                                  else (a.fmtFor .intT).toList) i)

/-! ### Array formatting (`fmt.go`) -/

/-- Modelled from the spec: `Prod` over a shape; the product of the empty
shape is 1, so that a scalar (empty shape) has exactly one element. -/
def shapeProd (l : List Nat) : Nat := l.prod

/-- `StringArray`: an array of strings with the same shape. -/
structure StringArr where
  Dims : List Nat
  Strings : List String

/-- The recursive `vector` closure of `jsonArray`: rank 1 yields
`[s1,…,sd]` over the first `Dims[0]` strings, higher rank nests brackets
with stride `Prod(Dims[1:])`. (Go indexes `S.Dims[0]` and would panic on an
empty `Dims`; that case is unreachable from ranked arrays.) -/
def jsonVector : List Nat → List String → String
  | [d], strs => "[" ++ String.intercalate "," (strs.take d) ++ "]"
  | d0 :: rest, strs =>
    let inc := shapeProd rest
    "[" ++ String.intercalate ","
      ((List.range d0).map (fun i => jsonVector rest (strs.drop (i * inc)))) ++ "]"
  | [], _ => "[]"

/-- The row loop of `matArray` for rank 2 (`for i := 0; i < m; i++`,
recursing on the remaining row count): rows of `k` comma-joined cells,
with a `;` after every row but the last. -/
def matBody (strs : List String) (k m : Nat) : Nat → Nat → Nat → String
  | 0, _, _ => ""
  | rem + 1, i, off =>
    String.intercalate "," ((strs.drop off).take k) ++
      (if i < m - 1 then ";" else "") ++ matBody strs k m rem (i + 1) (off + k)

/-- `matArray` (used for `PP = -3`): rank 1 gives `[a,…,b]`, rank 2 gives
`[a,b;c,d]`, any other rank gives the placeholder string `[rank error]`. -/
def matArrayS (sa : StringArr) : String :=
  if sa.Dims.length = 1 then "[" ++ String.intercalate "," sa.Strings ++ "]"
  else if sa.Dims.length ≠ 2 then "[rank error]"
  else
    "[" ++ matBody sa.Strings (sa.Dims.getD 1 0) (sa.Dims.getD 0 0)
      (sa.Dims.getD 0 0) 0 0 ++ "]"

/-- One step of the row-major index increment (`inc` in `ArrayString`), on
the reversed index and shape lists; returns the new reversed index and the
number of trailing dimensions that rolled over (`none` encodes Go's `-1`,
all dimensions rolled). -/
def incRev : List Nat → List Nat → List Nat × Option Nat
  | x :: xs, s :: ss =>
    if x + 1 = s then
      let p := incRev xs ss
      (0 :: p.1, p.2.map (· + 1))
    else ((x + 1) :: xs, some 0)
  | xs, _ => (xs, none)

/-- The element loop of `ArrayString` for rank at least 2: emit each cell,
then `term` newlines when `term` trailing dimensions rolled over (one
newline when every dimension rolled).  Rows are collected as cell lists;
an empty row is a blank line. -/
def tabLoop (cell : Nat → String) (shapeRev : List Nat) :
    Nat → Nat → List Nat → List (List String) → List String → List (List String)
  | 0, _, _, rows, cur => rows ++ [cur]
  | n + 1, i, idx, rows, cur =>
    let p := incRev idx shapeRev
    match p.2 with
    | some 0 => tabLoop cell shapeRev n (i + 1) p.1 rows (cur ++ [cell i])
    | some t => tabLoop cell shapeRev n (i + 1) p.1
        (rows ++ [cur ++ [cell i]] ++ List.replicate (t - 1) []) []
    | none => tabLoop cell shapeRev n (i + 1) p.1 (rows ++ [cur ++ [cell i]]) []

/-- Modelled from the spec: the `text/tabwriter` rendering — cells
right-aligned in columns whose width is one more than the widest cell of
the column (minimum width 1, padding 1, `AlignRight`). -/
def renderTable (rows : List (List String)) : String :=
  let width := fun j => ((rows.map (fun r => (r.getD j "").length)).foldl max 0) + 1
  let line := fun (r : List String) =>
    String.join ((List.range r.length).map (fun j =>
      let c := r.getD j ""
      String.mk (List.replicate (width j - c.length) ' ') ++ c))
  String.intercalate "\n" (rows.map line)

/-- The final-newline strip at the end of `ArrayString`. -/
def dropFinalNewline (s : String) : String :=
  if s ≠ "" ∧ s.back = '\n' then s.dropRight 1 else s

/-- `ArrayString` from `fmt.go`, parametrized (like the Go `Array`
interface) by the shape and the per-element formatted strings
(`v.At(i).String(f)`): `PP = -2` routes to the json form, `PP = -3` to the
matlab form; the empty shape prints empty, rank 1 joins elements by
spaces, higher ranks print the tab-aligned table with `k` newlines closing
dimension `k`. -/
def ArrayString (f : Format) (dims : List Nat) (strs : List String) : String :=
  if f.PP = -2 then jsonVector dims strs
  else if f.PP = -3 then matArrayS ⟨dims, strs⟩
  else
    match dims with
    | [] => ""
    | [n] => String.intercalate " " ((List.range n).map (fun i => strs.getD i ""))
    | _ =>
      let size := shapeProd dims
      dropFinalNewline (renderTable
        (tabLoop (fun i => strs.getD i "") dims.reverse size 0
          (List.replicate dims.length 0) [] []))

/-- Modelled from the spec: `%q` quoting of a string (`PP < 0`). -/
def quoteStr (s : String) : String :=
  "\"" ++ String.mk (s.toList.foldr (fun c acc =>
    if c = '"' then '\\' :: '"' :: acc
    else if c = '\\' then '\\' :: '\\' :: acc
    else if c = '\n' then '\\' :: 'n' :: acc
    else if c = '\t' then '\\' :: 't' :: acc
    else if c = '\r' then '\\' :: 'r' :: acc
    else c :: acc) []) ++ "\""

/-- Modelled from the spec: `String` values print raw for `PP ≥ 0` and
`%q`-quoted for `PP < 0`. -/
def strString (f : Format) (s : String) : String :=
  if f.PP < 0 then quoteStr s else s

/-- The `Dict.String` method of `object.go`, over the formatted key/value
string pairs: `PP = -2` gives a json object, `PP = -3` gives
`struct(k,v,…)`, otherwise one `key: value` line per entry through the
tabwriter. -/
def dictString (f : Format) (kvs : List (String × String)) : String :=
  if f.PP = -2 then
    "\x7b" ++ String.intercalate "," (kvs.map (fun p => p.1 ++ ":" ++ p.2)) ++ "\x7d"
  else if f.PP = -3 then
    "struct(" ++ String.intercalate "," (kvs.map (fun p => p.1 ++ "," ++ p.2)) ++ ")"
  else dropFinalNewline (renderTable (kvs.map (fun p => [p.1 ++ ":", p.2])))

mutual

/-- Structural nesting depth of a value: the recursion budget for the
formatter. -/
def vDepth : V → Nat
  | .int _ => 1
  | .str _ => 1
  | .emptyArray => 1
  | .mixed _ vs => vListDepth vs + 1
  | .dict ks m => max (vListDepth ks) (vPairsDepth m) + 1

def vListDepth : List V → Nat
  | [] => 0
  | v :: vs => max (vDepth v) (vListDepth vs)

def vPairsDepth : List (V × V) → Nat
  | [] => 0
  | (a, b) :: ps => max (max (vDepth a) (vDepth b)) (vPairsDepth ps)

end

/-- `Value.String` with a nesting budget (the value's `vDepth` always
suffices): scalars render themselves (`Int.String`, `String.String`, the
empty array prints empty), arrays render through `ArrayString` over their
elements' strings, dictionaries through `Dict.String` over their entries'
strings. -/
def vStringF (f : Format) : Nat → V → String
  | 0, _ => ""
  | fuel + 1, v =>
    match v with
    | .int i => String.mk (intString f i)
    | .str s => strString f s
    | .emptyArray => ""
    | .mixed d vs => ArrayString f d (vs.map (vStringF f fuel))
    | .dict _ M =>
      dictString f (M.map (fun p => (vStringF f fuel p.1, vStringF f fuel p.2)))

/-- `Value.String`. -/
def vString (f : Format) (v : V) : String := vStringF f (vDepth v) v

/-! ### Array parsing (`ScanRankArray`, `ParseArray`) -/

/-- Modelled from the spec: `unicode.IsSpace` for the runes the scanner can
meet (ASCII whitespace). -/
def goIsSpace (c : Char) : Bool :=
  c = ' ' || c = '\t' || c = '\n' || c = '\x0b' || c = '\x0c' || c = '\r'

/-- Modelled from the spec: the runes that can occur in a number literal
(`[¯]?DIGITS(.DIGITS)?([Ee][¯]?DIGITS)?([Jj@][¯]?NUM)?`). -/
def numRune (c : Char) : Bool :=
  c.isDigit || c = '¯' || c = '.' || c = 'E' || c = 'e' || c = 'J' || c = 'j' || c = '@'

/-- Modelled from the spec: `scan.ScanNumber` — read the maximal run of
number runes, leaving the rest of the input. -/
def scanNumber : List Char → List Char × List Char
  | [] => ([], [])
  | c :: cs =>
    if numRune c then
      let p := scanNumber cs
      (c :: p.1, p.2)
    else ([], c :: cs)

theorem scanNumber_append : ∀ cs : List Char, (scanNumber cs).1 ++ (scanNumber cs).2 = cs := by
  intro cs
  induction cs with
  | nil => rfl
  | cons c cs ih =>
    by_cases h : numRune c <;> simp [scanNumber, h, ih]

/-- Escape resolution inside a double-quoted string (`\n \r \t \\ \"`).
Modelled from the spec (the scanner lives outside the repository fragment;
its tests pin this behavior). -/
def escChar (c : Char) : Char :=
  if c = 'n' then '\n' else if c = 'r' then '\r' else if c = 't' then '\t' else c

/-- Modelled from the spec: `scan.ReadString` after the opening `"` — read
up to the closing quote, resolving backslash escapes; unterminated input
fails. -/
def readStrBody : List Char → Option (List Char × List Char)
  | [] => none
  | c :: cs =>
    if c = '"' then some ([], cs)
    else if c = '\\' then
      match cs with
      | [] => none
      | c2 :: cs2 => (readStrBody cs2).map (fun p => (escChar c2 :: p.1, p.2))
    else (readStrBody cs).map (fun p => (c :: p.1, p.2))

theorem readStrBody_len_aux : ∀ (n : Nat) (cs : List Char), cs.length ≤ n →
    ∀ sl rest, readStrBody cs = some (sl, rest) → rest.length < cs.length := by
  intro n
  induction n with
  | zero =>
    intro cs hlen sl rest h
    cases cs with
    | nil => simp [readStrBody] at h
    | cons a b => simp at hlen
  | succ n ih =>
    intro cs hlen sl rest h
    cases cs with
    | nil => simp [readStrBody] at h
    | cons c cs =>
      rw [readStrBody.eq_def] at h
      simp only at h
      by_cases hq : c = '"'
      · rw [if_pos hq] at h
        have h2 : (([] : List Char), cs) = (sl, rest) := by injection h
        have : cs = rest := congrArg Prod.snd h2
        rw [← this]
        simp
      · rw [if_neg hq] at h
        by_cases hb : c = '\\'
        · rw [if_pos hb] at h
          cases cs with
          | nil =>
            have h2 : (none : Option (List Char × List Char)) = some (sl, rest) := h
            simp at h2
          | cons c2 cs2 =>
            simp only at h
            cases hr : readStrBody cs2 with
            | none =>
              rw [hr] at h
              have h2 : (none : Option (List Char × List Char)) = some (sl, rest) := h
              simp at h2
            | some p =>
              rw [hr] at h
              have h2 : some (escChar c2 :: p.1, p.2) = some (sl, rest) := h
              have h3 : (escChar c2 :: p.1, p.2) = (sl, rest) := by injection h2
              have hrest : p.2 = rest := congrArg Prod.snd h3
              have hlt := ih cs2 (by simp at hlen; omega) p.1 p.2 hr
              rw [← hrest]
              simp only [List.length_cons]
              omega
        · rw [if_neg hb] at h
          cases hr : readStrBody cs with
          | none =>
            rw [hr] at h
            have h2 : (none : Option (List Char × List Char)) = some (sl, rest) := h
            simp at h2
          | some p =>
            rw [hr] at h
            have h2 : some (c :: p.1, p.2) = some (sl, rest) := h
            have h3 : (c :: p.1, p.2) = (sl, rest) := by injection h2
            have hrest : p.2 = rest := congrArg Prod.snd h3
            have hlt := ih cs (by simp at hlen; omega) p.1 p.2 hr
            rw [← hrest]
            simp only [List.length_cons]
            omega

theorem readStrBody_len (cs sl rest : List Char) (h : readStrBody cs = some (sl, rest)) :
    rest.length < cs.length :=
  readStrBody_len_aux cs.length cs (le_refl _) sl rest h

/-- The trailing shape-fill loop of `ScanRankArray`, on a recursion
budget: while `i ≤ rank - len(shape)`, prepend `len(values)/Prod(shape)`
to the shape (the empty shape divides by 1, a zero product is an error)
and reject if the new shape's product differs from the element count.
`i` grows by one per iteration and the condition fails once `i` exceeds
`rank`, so with any budget exceeding `rank + 1 - i` the budget-0 branch
returns what the stopped Go loop returns. -/
def fillLoopF (rank : Int) (nvals : Nat) : Nat → Nat → List Nat → Except String (List Nat)
  | 0, _, shape => .ok shape
  | fuel + 1, i, shape =>
    if (i : Int) ≤ rank - shape.length then
      if shape.length ≠ 0 ∧ shapeProd shape = 0 then
        .error "parse array: divide by zero"
      else
        let p := if shape.length = 0 then 1 else shapeProd shape
        let shape2 := nvals / p :: shape
        if shapeProd shape2 ≠ nvals then
          .error "parse array: array is not rectangular"
        else fillLoopF rank nvals fuel (i + 1) shape2
    else .ok shape

/-- The post-loop phase of `ScanRankArray`: no values is end-of-input; for a
negative rank the effective rank is `len(shape)`, less one when the shape
already accounts for every element; then the fill loop builds the final
shape and the result is a `MixedArray`. -/
def finishScan (rank : Int) (values : List V) (shape : List Nat) : Except String V :=
  if values.isEmpty then .error "EOF"
  else
    let rank2 : Int :=
      if rank < 0 then
        (if shapeProd shape = values.length then (shape.length : Int) - 1
         else (shape.length : Int))
      else rank
    (fillLoopF rank2 values.length ((rank2 + 1).toNat + 1) 0 shape).map
      (fun s => V.mixed s values)

/-- Modelled from the spec: `Tower.Parse` with the integer kind registered —
parse the lexeme through `ParseInt` (the repository's tower also registers
rational, float and complex kinds; the round-trip claims here only involve
integer elements). -/
def towerParse (cs : List Char) : Option V := (ParseInt cs).map V.int

/-- The rune loop of `ScanRankArray`, on a recursion budget: `\n`, `;`,
`]` are axis terminators (counted in `c`, growing the inferred shape when
the run exceeds its length, breaking when the run reaches a requested
positive rank); whitespace and `, [ ( )` are skipped; `"` starts a string
and anything else a number, either of which resets `c` and is returned
directly when the requested rank is 0.  Every step consumes at least one
rune, so `ScanRankArray`'s budget of one more than the input length is
never exhausted. -/
def scanLoopF (rank : Int) : Nat → List Char → List V → Nat → List Nat → Except String V
  | 0, _, _, _, _ => .error "out of budget"
  | _ + 1, [], values, _, shape => finishScan rank values shape
  | fuel + 1, r :: cs, values, c, shape =>
    if r = '\n' ∨ r = ';' ∨ r = ']' then
      if values.isEmpty then scanLoopF rank fuel cs values c shape
      else if ((c : Int) + 1 = rank) then finishScan rank values shape
      else if c + 1 > shape.length then
        scanLoopF rank fuel cs values (c + 1)
          (if shape = [] then [values.length]
           else values.length / shapeProd shape :: shape)
      else scanLoopF rank fuel cs values (c + 1) shape
    else if goIsSpace r ∨ r = ',' ∨ r = '[' ∨ r = '(' ∨ r = ')' then
      scanLoopF rank fuel cs values c shape
    else if r = '"' then
      match readStrBody cs with
      | none => .error "parse array: unterminated string"
      | some (sl, rest) =>
        if rank = 0 then .ok (V.str (String.mk sl))
        else scanLoopF rank fuel rest (values ++ [V.str (String.mk sl)]) 0 shape
    else
      match scanNumber (r :: cs) with
      | (lex, rest) =>
        match towerParse lex with
        | none => .error "parse array: number syntax"
        | some v =>
          if rank = 0 then .ok v
          else scanLoopF rank fuel rest (values ++ [v]) 0 shape

/-- `ScanRankArray` on a string input: run the rune loop from an empty
state. -/
def ScanRankArray (rank : Int) (s : String) : Except String V :=
  scanLoopF rank (s.toList.length + 1) s.toList [] 0 []

/-- `ParseArray` with a nil prototype: scan with unrestricted rank and wrap
any error. -/
def ParseArray (s : String) : Except String V :=
  match ScanRankArray (-1) s with
  | .error e => .error ("parse array: " ++ e)
  | .ok v => .ok v

/-! ### Dictionaries (`object.go`) and `SetPP` -/

/-- Go map lookup `d.M[key]` (`nil` when the key is absent). -/
def dictAt (M : List (V × V)) (key : V) : Option V :=
  (M.find? (fun p => vEq p.1 key)).map Prod.snd

/-- `Value.Copy`: Go returns a deep copy; with pure value semantics the
copy is the value itself. -/
def vCopy (v : V) : V := v

/-- `Dict.Set` from `object.go`: when the key is not yet in the map, append
a copy of it to the ordered key list `K`; then store a copy of the value
under the key in `M`. -/
def dictSet (K : List V) (M : List (V × V)) (key v : V) : List V × List (V × V) :=
  let present := (dictAt M key).isSome
  let K2 := if present then K else K ++ [vCopy key]
  let M2 :=
    if present then M.map (fun p => if vEq p.1 key then (p.1, vCopy v) else p)
    else M ++ [(vCopy key, vCopy v)]
  (K2, M2)

/-- `Dict.Keys`: the ordered key list. -/
def dictKeys (K : List V) (_M : List (V × V)) : List V := K

/-- `SetPP` from `fmt.go`, returning the updated format configuration and
the error result (`none` is Go's `nil` error).  An empty array resets `PP`
and the format map; a dict stores each `String` value under the reflected
type of its key — and then falls through to the `illegal type` error return
(the Go source has no `return nil` in this branch); an integer sets `PP`;
anything else is an error and leaves the configuration unchanged. -/
def SetPP (a : Format) (R : V) : Format × Option String :=
  match R with
  | .emptyArray => ({ PP := 0, Fmt := [] }, none)
  | .dict K M =>
    let a2 := (dictKeys K M).foldl (fun acc k =>
      match dictAt M k with
      | some (.str s) => acc.fmtSet (typeOf k) s
      | _ => acc) a
    (a2, some "illegal type for PP: *apl.Dict")
  | .int n => ({ a with PP := n }, none)
  | _ => (a, some "illegal type for PP")

/-! ### The integer kernel (`int.go`) -/

/-- Two's-complement reduction to the 64-bit range `[-2^63, 2^63)`: the
wrapping arithmetic of Go's `int`. -/
def wrap64 (x : Int) : Int := (x + 2 ^ 63) % 2 ^ 64 - 2 ^ 63

/-- `Int.Div2`: `nil, false` on a zero divisor; otherwise Go's truncating
division on the wrapping 64-bit `int` (`-2^63 / -1` overflows back to
`-2^63`), kept only when the program's wrapping product check `r*n == a`
passes, else the "does not close" signal. -/
def Div2 (a b : Int) : Option Int :=
  if b = 0 then none
  else
    let r := wrap64 (Int.tdiv a b)
    if wrap64 (r * b) = a then some r else none

/-- The factorial loop of `Int.Gamma` (`n := 1`, then `n *= k` for
ascending `k`). -/
def factLoop : Nat → Int
  | 0 => 1
  | k + 1 => factLoop k * (k + 1)

/-- `Int.Gamma`: factorial for `0 ≤ i ≤ 20` (the `int64` limit), otherwise
the "does not close" signal. -/
def Gamma (i : Int) : Option Int :=
  if i < 0 ∨ i > 20 then none
  else if i = 0 then some 1
  else some (factLoop i.toNat)

/-- `m1exp` from `Gamma2`: `(-1)^n`.  (Go's `%` truncates while Lean's
`%` is Euclidean; both yield 0 exactly on even input, so the parity test
agrees.) -/
def m1exp (n : Int) : Int := if n % 2 = 0 then 1 else -1

/-- One level of `Int.Gamma2` (the branch table from APL2 p. 66), with
the recursive call abstracted: the three all-`Gamma` quotients for
nonnegative arguments with `R-L ≥ 0`, zero for `R-L < 0` over nonnegative
arguments and for the two zero rows, sign-adjusted recursion for the two
negative-`R` rows, and the final unreachable `nil, false`. -/
def gamma2Step (rec2 : Int → Int → Option (Option Int)) (L R : Int) : Option (Option Int) :=
  if 0 ≤ L ∧ 0 ≤ R ∧ 0 ≤ R - L then
    some (match Gamma L, Gamma R, Gamma (R - L) with
      | some lg, some rg, some rlg => some (Int.tdiv rg (lg * rlg))
      | _, _, _ => none)
  else if 0 ≤ L ∧ 0 ≤ R ∧ R - L < 0 then some (some 0)
  else if 0 ≤ L ∧ R < 0 ∧ R - L < 0 then
    match rec2 L (L - (1 + R)) with
    | none => none
    | some none => some none
    | some (some v) => some (some (m1exp L * v))
  else if L < 0 ∧ 0 ≤ R ∧ 0 ≤ R - L then some (some 0)
  else if L < 0 ∧ R < 0 ∧ 0 ≤ R - L then
    match rec2 (-(R + 1)) (if 1 + L < 0 then -(1 + L) else 1 + L) with
    | none => none
    | some none => some none
    | some (some v) => some (some (m1exp (R - L) * v))
  else if L < 0 ∧ R < 0 ∧ R - L < 0 then some (some 0)
  else some none

/-- `Int.Gamma2` with an explicit recursion-depth budget: the outer `none`
means the budget was exhausted (which never happens from budget 2 on), and
the inner `Option` is the Go `(Value, bool)` result, `none` being "does
not close". -/
def gamma2F : Nat → Int → Int → Option (Option Int)
  | 0, _, _ => none
  | fuel + 1, L, R => gamma2Step (gamma2F fuel) L R

/-! ### The line-delimited external reader (`iv→r`) -/

/-- Split a character list at every occurrence of a separator. -/
def splitChar (sep : Char) : List Char → List (List Char)
  | [] => [[]]
  | c :: cs =>
    let r := splitChar sep cs
    if c = sep then [] :: r
    else (c :: r.headD []) :: r.tail

/-- The integers on one line (whitespace-separated tokens). -/
def lineInts (l : List Char) : List Int :=
  ((splitChar ' ' l).filter (· ≠ [])).filterMap ParseInt

/-- Group lines at blank lines (auxiliary: raw groups, possibly empty). -/
def splitBlankAux : List (List Char) → List (List (List Char))
  | [] => [[]]
  | l :: ls =>
    let r := splitBlankAux ls
    if l = [] then [] :: r
    else (l :: r.headD []) :: r.tail

/-- Blank-line separated groups of nonblank lines. -/
def chunksOfLines (ls : List (List Char)) : List (List (List Char)) :=
  (splitBlankAux ls).filter (· ≠ [])

/-- Modelled from the spec: the `iv→r` rank reader of package `iv` (the
package itself is outside the repository fragment; `TestIv` pins its
behavior).  `read(rank)` splits the external input into chunks — the lines
for rank 0, the blank-line separated line groups for rank 1 (the only
ranks the claims exercise) — and yields the rank-`rank` items (whitespace
tokens as scalars for rank 0, whole lines as vectors for rank 1) paired
with the same-chunk flag: every flag is 0 when the input forms a single
chunk, otherwise the first row flags 0 and every later row flags 1,
exactly as in the rows `TestIv` expects. -/
def ivRead (rank : Nat) (s : String) : List (List Int × Nat) :=
  let lines := splitChar '\n' s.toList
  let chunks : List (List (List Int)) :=
    if rank = 0 then
      (lines.filter (· ≠ [])).map (fun l => (lineInts l).map (fun i => [i]))
    else
      (chunksOfLines lines).map (fun g => g.map lineInts)
  let rows := chunks.flatten
  match rows with
  | [] => []
  | first :: rest =>
    if chunks.length ≤ 1 then (first :: rest).map (fun r => (r, 0))
    else (first, 0) :: rest.map (fun r => (r, 1))

/-! ## Shared instances for the claims -/

/-- The tabular format `PP = -1` with no registered per-type format
strings. -/
def fmtTab : Format := ⟨-1, []⟩

/-- The json format `PP = -2` with no registered per-type format strings. -/
def fmtJson : Format := ⟨-2, []⟩

/-- The matlab format `PP = -3` with no registered per-type format
strings. -/
def fmtMat : Format := ⟨-3, []⟩

/-- A rank-1 array of integers. -/
def intVec (xs : List Int) : V := .mixed [xs.length] (xs.map V.int)

/-! ## C1, counterexample -/

/-- C1 (counterexample): the empty array — shape `[0]`, rank 1, containing
no complex numbers — formats to a string without any element in all three
modes (`""` under `PP=-1`, `"[]"` under `PP=-2` and `PP=-3`), and
`ParseArray` rejects each of these strings with an error instead of
returning a value equal to the array. -/
theorem roundtrip_fails_on_empty :
    vString fmtTab (V.mixed [0] []) = "" ∧
    ParseArray (vString fmtTab (V.mixed [0] [])) = .error "parse array: EOF" ∧
    ParseArray (vString fmtJson (V.mixed [0] [])) = .error "parse array: EOF" ∧
    ParseArray (vString fmtMat (V.mixed [0] [])) = .error "parse array: EOF" :=
  ⟨rfl, rfl, rfl, rfl⟩

/-! ## C2 -/

/-- C2 (code bug): `SetPP` on a dict stores the format string found under
the reflected type of the key and nevertheless returns the DomainError —
the dict branch of the Go source has no `return nil`, so it falls through
to `return fmt.Errorf("illegal type for PP: %T", R)`.  The integer and
empty-array shapes do return no error, and any other value errors leaving
the configuration unchanged. -/
theorem SetPP_dict_errors :
    SetPP ⟨7, []⟩ (V.dict [V.int 0] [(V.int 0, V.str "%x")]) =
      (⟨7, [(TypeKey.intT, "%x")]⟩, some "illegal type for PP: *apl.Dict") ∧
    SetPP ⟨7, []⟩ V.emptyArray = (⟨0, []⟩, none) ∧
    SetPP ⟨7, []⟩ (V.int 3) = (⟨3, []⟩, none) ∧
    SetPP ⟨7, []⟩ (V.str "x") = (⟨7, []⟩, some "illegal type for PP") ∧
    SetPP ⟨7, []⟩ (V.mixed [1] [V.int 1]) = (⟨7, []⟩, some "illegal type for PP") :=
  ⟨rfl, rfl, rfl, rfl, rfl⟩

/-! ## C4, counterexample -/

/-- C4 (counterexample): matrix-literal formatting (`PP = -3`) of a rank-3
array does not fail with an error — `ArrayString` has no error channel and
returns the placeholder string `"[rank error]"`, which is not a bracketed
literal of the elements. -/
theorem matArray_rank3_placeholder :
    vString fmtMat (V.mixed [1, 1, 2] [V.int 1, V.int 2]) = "[rank error]" ∧
    vString fmtMat (V.mixed [1, 1, 2] [V.int 1, V.int 2]) ≠ "[1,2]" :=
  ⟨rfl, by decide⟩

/-! ## C8 -/

/-- C8 (counterexample): the rank-1 reader reads whole lines as vectors,
so the input `"7 8\n9"` yields the two rows `(7 8;0) (9;0)` — it cannot
yield the three claimed rows `(7;0) (8;1) (9;1)`. -/
theorem ivRead_rank1_two_rows :
    ivRead 1 "7 8\n9" = [([7, 8], 0), ([9], 0)] ∧
    ivRead 1 "7 8\n9" ≠ [([7], 0), ([8], 1), ([9], 1)] :=
  ⟨rfl, by decide⟩

/-- C8 (amended): the rank-0 reader on `"7 8\n9"` produces exactly the
three rows `(7;0) (8;1) (9;1)`, the second field marking rows that
continue after the first once the input spans more than one chunk. -/
theorem ivRead_rank0_rows :
    ivRead 0 "7 8\n9" = [([7], 0), ([8], 1), ([9], 1)] := rfl

/-! ## C6 -/

/-- A value already in the 64-bit range is untouched by the wrap. -/
theorem wrap64_eq_self (x : Int) (h1 : -(2 ^ 63) ≤ x) (h2 : x < 2 ^ 63) :
    wrap64 x = x := by
  unfold wrap64
  have hpow3 : ((2 : Int) ^ 63) = 9223372036854775808 := by norm_num
  have hpow4 : ((2 : Int) ^ 64) = 18446744073709551616 := by norm_num
  rw [hpow3] at *
  rw [hpow4]
  omega

/-- The truncating remainder is smaller in magnitude than the divisor. -/
theorem tmod_natAbs_lt (a b : Int) (hb : b ≠ 0) :
    (a.tmod b).natAbs < b.natAbs := by
  have key : ∀ (x c : Int), 0 < c → (x.tmod c).natAbs < c.natAbs := by
    intro x c hc
    rcases le_or_lt 0 x with hx | hx
    · have h1 : 0 ≤ x.tmod c := Int.tmod_nonneg c hx
      have h2 : x.tmod c < c := Int.tmod_lt_of_pos x hc
      omega
    · have hneg : (-x).tmod c = -(x.tmod c) := by
        rw [Int.tmod_def, Int.tmod_def, Int.neg_tdiv]
        ring
      have h1 : 0 ≤ (-x).tmod c := Int.tmod_nonneg c (by omega)
      have h2 : (-x).tmod c < c := Int.tmod_lt_of_pos (-x) hc
      rw [hneg] at h1 h2
      omega
  rcases lt_trichotomy b 0 with hbn | hb0 | hbp
  · have h3 := key a (-b) (by omega)
    rw [Int.tmod_neg] at h3
    omega
  · exact absurd hb0 hb
  · exact key a b hbp

/-- Under exact division of in-range operands the truncated quotient is in
range again — except for `(-2^63) / -1`, whose quotient `2^63` overflows. -/
theorem tdiv_range_of_dvd (a b : Int)
    (ha1 : -(2 ^ 63) ≤ a) (ha2 : a < 2 ^ 63) (hb : b ≠ 0) (hd : b ∣ a)
    (hc : ¬(a = -(2 ^ 63) ∧ b = -1)) :
    -(2 ^ 63) ≤ a.tdiv b ∧ a.tdiv b < 2 ^ 63 := by
  have hq : a.tdiv b * b = a := Int.tdiv_mul_cancel hd
  have hQ1 : (a.tdiv b).natAbs ≤ a.natAbs := by
    rw [Int.natAbs_tdiv]
    exact Nat.div_le_self _ _
  have hpow : ((2 : Int) ^ 63) = 9223372036854775808 := by norm_num
  by_cases hQ : a.tdiv b = 2 ^ 63
  · exfalso
    have heq : a = 9223372036854775808 * b := by
      rw [← hq, hQ, hpow]
    rw [hpow] at ha1 ha2 hc
    have hb1 : b = -1 := by omega
    have ha3 : a = -9223372036854775808 := by omega
    exact hc ⟨ha3, hb1⟩
  · rw [hpow] at ha1 ha2 hQ ⊢
    omega

/-- C6: over the wrapping 64-bit `int` of the source, `Div2 a b` closes
exactly when the divisor `b` is nonzero and divides `a`; the returned
quotient is Go's `a / b` — the exact quotient in every case except
`(-2^63) ÷ -1`, where two's-complement overflow wraps it back to `-2^63`
— and it always passes the program's own wrapping product check
`r*n == a`; in every other case `Div2` returns the "does not close"
signal `none`, never an error. -/
theorem Div2_exact (a b : Int)
    (ha1 : -(2 ^ 63) ≤ a) (ha2 : a < 2 ^ 63)
    (hb1 : -(2 ^ 63) ≤ b) (hb2 : b < 2 ^ 63) :
    (Div2 a b = if b ≠ 0 ∧ b ∣ a then some (wrap64 (a.tdiv b)) else none) ∧
    (∀ q, Div2 a b = some q → wrap64 (q * b) = a) ∧
    (¬(a = -(2 ^ 63) ∧ b = -1) →
      Div2 a b = if b ≠ 0 ∧ b ∣ a then some (a / b) else none) ∧
    Div2 (-(2 ^ 63)) (-1) = some (-(2 ^ 63)) := by
  have hpow : ((2 : Int) ^ 63) = 9223372036854775808 := by norm_num
  have hw63 : wrap64 (2 ^ 63) = -(2 ^ 63) := by
    unfold wrap64
    norm_num
  have htd63 : Int.tdiv (-(2 ^ 63)) (-1) = 2 ^ 63 := by
    rw [show ((-1) : Int) = -(1 : Int) from rfl, Int.tdiv_neg, Int.tdiv_one,
      neg_neg]
  have hcorner : Div2 (-(2 ^ 63)) (-1) = some (-(2 ^ 63)) := by
    simp only [Div2]
    rw [if_neg (show ¬((-1 : Int) = 0) from by norm_num)]
    rw [htd63, hw63]
    rw [show ((-(2 ^ 63)) * (-1) : Int) = 2 ^ 63 from by ring, hw63]
    rw [if_pos rfl]
  have hmain : Div2 a b =
      if b ≠ 0 ∧ b ∣ a then some (wrap64 (a.tdiv b)) else none := by
    by_cases hb : b = 0
    · subst hb
      simp [Div2]
    · by_cases hd : b ∣ a
      · rw [if_pos ⟨hb, hd⟩]
        by_cases hcor : a = -(2 ^ 63) ∧ b = -1
        · obtain ⟨hA, hB⟩ := hcor
          subst hA
          subst hB
          rw [hcorner, htd63, hw63]
        · have hr := tdiv_range_of_dvd a b ha1 ha2 hb hd hcor
          have hq : a.tdiv b * b = a := Int.tdiv_mul_cancel hd
          have hw : wrap64 (a.tdiv b) = a.tdiv b := wrap64_eq_self _ hr.1 hr.2
          simp only [Div2]
          rw [if_neg hb, hw, hq, wrap64_eq_self a ha1 ha2, if_pos rfl]
      · rw [if_neg (fun hc => hd hc.2)]
        have hQt : a.tdiv b * b + a.tmod b = a := by
          rw [mul_comm]
          exact Int.tdiv_add_tmod a b
        have ht0 : a.tmod b ≠ 0 := fun h => hd (Int.dvd_of_tmod_eq_zero h)
        have htlt : (a.tmod b).natAbs < b.natAbs := tmod_natAbs_lt a b hb
        have hQ1 : (a.tdiv b).natAbs ≤ a.natAbs := by
          rw [Int.natAbs_tdiv]
          exact Nat.div_le_self _ _
        have hP1 : (a.tdiv b * b).natAbs ≤ a.natAbs := by
          rw [Int.natAbs_mul, Int.natAbs_tdiv]
          exact Nat.div_mul_le_self _ _
        have hQP : (a.tdiv b).natAbs ≤ (a.tdiv b * b).natAbs := by
          rw [Int.natAbs_mul]
          exact Nat.le_mul_of_pos_right _ (Int.natAbs_pos.mpr hb)
        have hQr : -(2 ^ 63) ≤ a.tdiv b ∧ a.tdiv b < 2 ^ 63 := by
          by_cases hQ : a.tdiv b = 2 ^ 63
          · exfalso
            have hPeq : a.tdiv b * b = 9223372036854775808 * b := by
              rw [hQ, hpow]
            rw [hpow] at ha1 ha2
            have hb3 : b = 1 ∨ b = -1 := by omega
            rcases hb3 with h1 | h1
            · exact hd (h1 ▸ one_dvd a)
            · exact hd (h1 ▸ ⟨-a, by ring⟩)
          · rw [hpow] at ha1 ha2 hQ ⊢
            omega
        have hPr : -(2 ^ 63) ≤ a.tdiv b * b ∧ a.tdiv b * b < 2 ^ 63 := by
          by_cases hP : a.tdiv b * b = 2 ^ 63
          · exfalso
            rw [hpow] at ha1 ha2 hb1 hb2 hP
            omega
          · rw [hpow] at ha1 ha2 hP ⊢
            omega
        have hwQ : wrap64 (a.tdiv b) = a.tdiv b := wrap64_eq_self _ hQr.1 hQr.2
        have hwP : wrap64 (a.tdiv b * b) = a.tdiv b * b :=
          wrap64_eq_self _ hPr.1 hPr.2
        simp only [Div2]
        rw [if_neg hb, hwQ, hwP]
        rw [if_neg (show ¬(a.tdiv b * b = a) from fun h => ht0 (by omega))]
  refine ⟨hmain, ?_, ?_, hcorner⟩
  · intro q h
    simp only [Div2] at h
    by_cases hb : b = 0
    · rw [if_pos hb] at h
      exact absurd h (by simp)
    · rw [if_neg hb] at h
      by_cases hc : wrap64 (wrap64 (a.tdiv b) * b) = a
      · rw [if_pos hc] at h
        rw [← Option.some.inj h]
        exact hc
      · rw [if_neg hc] at h
        exact absurd h (by simp)
  · intro hcor
    rw [hmain]
    by_cases hcond : b ≠ 0 ∧ b ∣ a
    · rw [if_pos hcond, if_pos hcond]
      have hr := tdiv_range_of_dvd a b ha1 ha2 hcond.1 hcond.2 hcor
      rw [wrap64_eq_self _ hr.1 hr.2, Int.tdiv_eq_ediv_of_dvd hcond.2]
    · rw [if_neg hcond, if_neg hcond]

/-- C6 (witness): at `a = 6, b = -3` — in range, dividing exactly — the
characterization applies and `Div2` closes with the exact quotient. -/
theorem Div2_exact_witness :
    ((-(2 ^ 63) ≤ (6 : Int)) ∧ ((6 : Int) < 2 ^ 63) ∧
     (-(2 ^ 63) ≤ (-3 : Int)) ∧ ((-3 : Int) < 2 ^ 63)) ∧
    Div2 6 (-3) =
      (if (-3 : Int) ≠ 0 ∧ (-3 : Int) ∣ (6 : Int) then
        some (wrap64 (Int.tdiv 6 (-3))) else none) :=
  ⟨⟨by norm_num, by norm_num, by norm_num, by norm_num⟩,
   (Div2_exact 6 (-3) (by norm_num) (by norm_num) (by norm_num) (by norm_num)).1⟩

/-! ## C10 -/

/-- With nonnegative arguments `Gamma2` makes no recursive call, so any
positive budget gives the budget-1 result. -/
theorem gamma2F_succ_nonneg (m : Nat) (L R : Int) (hL : 0 ≤ L) (hR : 0 ≤ R) :
    gamma2F (m + 1) L R = gamma2F 1 L R := by
  show gamma2Step (gamma2F m) L R = gamma2Step (gamma2F 0) L R
  by_cases h1 : 0 ≤ R - L
  · simp only [gamma2Step]
    rw [if_pos ⟨hL, hR, h1⟩, if_pos ⟨hL, hR, h1⟩]
  · have h2 : R - L < 0 := by omega
    have nc1 : ¬(0 ≤ L ∧ 0 ≤ R ∧ 0 ≤ R - L) := fun hc => h1 hc.2.2
    have c2 : 0 ≤ L ∧ 0 ≤ R ∧ R - L < 0 := ⟨hL, hR, h2⟩
    simp only [gamma2Step]
    rw [if_neg nc1, if_neg nc1, if_pos c2, if_pos c2]

/-- With nonnegative arguments even budget 1 never exhausts. -/
theorem gamma2F_one_ne_none (L R : Int) (hL : 0 ≤ L) (hR : 0 ≤ R) :
    gamma2F 1 L R ≠ none := by
  show gamma2Step (gamma2F 0) L R ≠ none
  simp only [gamma2Step]
  by_cases h1 : 0 ≤ R - L
  · rw [if_pos ⟨hL, hR, h1⟩]
    simp
  · have nc1 : ¬(0 ≤ L ∧ 0 ≤ R ∧ 0 ≤ R - L) := fun hc => h1 hc.2.2
    rw [if_neg nc1, if_pos ⟨hL, hR, by omega⟩]
    simp

/-- One `Gamma2` level over a budget-`m+1` recursion equals the level over
a budget-1 recursion: both recursive rows call with nonnegative
arguments. -/
theorem gamma2Step_fuel (m : Nat) (L R : Int) :
    gamma2Step (gamma2F (m + 1)) L R = gamma2Step (gamma2F 1) L R := by
  simp only [gamma2Step]
  by_cases c1 : 0 ≤ L ∧ 0 ≤ R ∧ 0 ≤ R - L
  · rw [if_pos c1, if_pos c1]
  · rw [if_neg c1, if_neg c1]
    by_cases c2 : 0 ≤ L ∧ 0 ≤ R ∧ R - L < 0
    · rw [if_pos c2, if_pos c2]
    · rw [if_neg c2, if_neg c2]
      by_cases c3 : 0 ≤ L ∧ R < 0 ∧ R - L < 0
      · rw [if_pos c3, if_pos c3]
        rw [gamma2F_succ_nonneg m L (L - (1 + R)) c3.1 (by omega)]
      · rw [if_neg c3, if_neg c3]
        by_cases c4 : L < 0 ∧ 0 ≤ R ∧ 0 ≤ R - L
        · rw [if_pos c4, if_pos c4]
        · rw [if_neg c4, if_neg c4]
          by_cases c5 : L < 0 ∧ R < 0 ∧ 0 ≤ R - L
          · rw [if_pos c5, if_pos c5]
            rw [gamma2F_succ_nonneg m (-(R + 1)) _ (by omega)
              (by split <;> omega)]
          · rw [if_neg c5, if_neg c5]

/-- One `Gamma2` level over a budget-1 recursion never exhausts the
budget. -/
theorem gamma2Step_ne_none (L R : Int) :
    gamma2Step (gamma2F 1) L R ≠ none := by
  simp only [gamma2Step]
  by_cases c1 : 0 ≤ L ∧ 0 ≤ R ∧ 0 ≤ R - L
  · rw [if_pos c1]
    simp
  · rw [if_neg c1]
    by_cases c2 : 0 ≤ L ∧ 0 ≤ R ∧ R - L < 0
    · rw [if_pos c2]
      simp
    · rw [if_neg c2]
      by_cases c3 : 0 ≤ L ∧ R < 0 ∧ R - L < 0
      · rw [if_pos c3]
        have hne := gamma2F_one_ne_none L (L - (1 + R)) c3.1 (by omega)
        cases hg : gamma2F 1 L (L - (1 + R)) with
        | none => exact absurd hg hne
        | some o => cases o <;> simp
      · rw [if_neg c3]
        by_cases c4 : L < 0 ∧ 0 ≤ R ∧ 0 ≤ R - L
        · rw [if_pos c4]
          simp
        · rw [if_neg c4]
          by_cases c5 : L < 0 ∧ R < 0 ∧ 0 ≤ R - L
          · rw [if_pos c5]
            have hne := gamma2F_one_ne_none (-(R + 1))
              (if 1 + L < 0 then -(1 + L) else 1 + L) (by omega) (by split <;> omega)
            cases hg : gamma2F 1 (-(R + 1)) (if 1 + L < 0 then -(1 + L) else 1 + L) with
            | none => exact absurd hg hne
            | some o => cases o <;> simp
          · rw [if_neg c5]
            by_cases c6 : L < 0 ∧ R < 0 ∧ R - L < 0
            · rw [if_pos c6]
              simp
            · rw [if_neg c6]
              simp

/-- C10: the dyadic Gamma recursion on integers terminates for every pair
of arguments with recursion depth at most 2: a budget of 2 levels already
yields the final answer (any larger budget computes the same result and
budget 2 is never exhausted), because the two recursive rows —
`L ≥ 0, R < 0` recursing on `(L, L-(1+R))` and `L < 0, R < 0, R-L ≥ 0`
recursing on `(-(R+1), |1+L|)` — always call with both arguments
nonnegative, and such calls make no further recursion. -/
theorem Gamma2_depth_two (n : Nat) (L R : Int) :
    gamma2F (n + 2) L R = gamma2F 2 L R ∧ gamma2F 2 L R ≠ none := by
  have e1 : gamma2F (n + 2) L R = gamma2Step (gamma2F (n + 1)) L R := rfl
  have e2 : gamma2F 2 L R = gamma2Step (gamma2F 1) L R := rfl
  rw [e1, e2]
  exact ⟨gamma2Step_fuel n L R, gamma2Step_ne_none L R⟩

/-! ## Digit lemmas -/

theorem digitChar_isDigit (d : Nat) (h : d < 10) : (Nat.digitChar d).isDigit = true := by
  interval_cases d <;> decide

theorem digitChar_toNat (d : Nat) (h : d < 10) : (Nat.digitChar d).toNat - 48 = d := by
  interval_cases d <;> decide

theorem natDecAux_digits : ∀ fuel n, n ≤ fuel → ∀ c ∈ natDecAux fuel n, c.isDigit = true := by
  intro fuel
  induction fuel with
  | zero => intro n _ c hc; simp [natDecAux] at hc
  | succ fuel ih =>
    intro n hn c hc
    cases n with
    | zero => simp [natDecAux] at hc
    | succ m =>
      simp only [natDecAux, List.mem_append, List.mem_singleton] at hc
      rcases hc with hc | hc
      · have hdiv : (m + 1) / 10 ≤ fuel := by
          have := Nat.div_lt_self (Nat.succ_pos m) (by norm_num : 1 < 10)
          omega
        exact ih _ hdiv c hc
      · rw [hc]
        exact digitChar_isDigit _ (Nat.mod_lt _ (by norm_num))

theorem natDecAux_ne_nil : ∀ fuel n, 0 < n → n ≤ fuel → natDecAux fuel n ≠ [] := by
  intro fuel n h0 hn
  cases fuel with
  | zero => omega
  | succ fuel =>
    cases n with
    | zero => omega
    | succ m => simp [natDecAux]

theorem natDecAux_foldl : ∀ fuel n, n ≤ fuel → ∀ a : Nat,
    (natDecAux fuel n).foldl (fun acc c => 10 * acc + (c.toNat - 48)) a =
      a * 10 ^ (natDecAux fuel n).length + n := by
  intro fuel
  induction fuel with
  | zero =>
    intro n hn a
    have : n = 0 := by omega
    simp [this, natDecAux]
  | succ fuel ih =>
    intro n hn a
    cases n with
    | zero => simp [natDecAux]
    | succ m =>
      have hdiv : (m + 1) / 10 ≤ fuel := by
        have := Nat.div_lt_self (Nat.succ_pos m) (by norm_num : 1 < 10)
        omega
      simp only [natDecAux, List.foldl_append, List.foldl_cons, List.foldl_nil,
        List.length_append, List.length_singleton]
      rw [ih _ hdiv]
      rw [digitChar_toNat _ (Nat.mod_lt _ (by norm_num))]
      have hmod := Nat.div_add_mod (m + 1) 10
      ring_nf
      omega

theorem natDec_digits (n : Nat) : ∀ c ∈ natDec n, c.isDigit = true := by
  intro c hc
  unfold natDec at hc
  by_cases h : n = 0
  · rw [if_pos h] at hc
    simp at hc
    rw [hc]
    decide
  · rw [if_neg h] at hc
    exact natDecAux_digits n n (le_refl n) c hc

theorem natDec_ne_nil (n : Nat) : natDec n ≠ [] := by
  unfold natDec
  by_cases h : n = 0
  · rw [if_pos h]; simp
  · rw [if_neg h]; exact natDecAux_ne_nil n n (by omega) (le_refl n)

theorem parseDigits_natDec (n : Nat) : parseDigits (natDec n) = some n := by
  unfold parseDigits
  rw [if_neg (natDec_ne_nil n)]
  rw [if_pos (by rw [List.all_eq_true]; intro c hc; exact natDec_digits n c hc)]
  congr 1
  unfold natDec
  by_cases h : n = 0
  · simp [h]
  · rw [if_neg h]
    have := natDecAux_foldl n n (le_refl n) 0
    simpa using this

/-! ## Replacement lemmas and the integer lexeme round trip -/

theorem isDigit_ne_dash {c : Char} (h : c.isDigit = true) : c ≠ '-' := by
  intro he; rw [he] at h; simp at h

theorem isDigit_ne_plus {c : Char} (h : c.isDigit = true) : c ≠ '+' := by
  intro he; rw [he] at h; simp at h

theorem isDigit_ne_macron {c : Char} (h : c.isDigit = true) : c ≠ '¯' := by
  intro he; rw [he] at h; simp at h

theorem replaceFirstDash_no_dash (l : List Char) (h : ∀ c ∈ l, c ≠ '-') :
    replaceFirstDash l = l := by
  induction l with
  | nil => rfl
  | cons c cs ih =>
    simp only [replaceFirstDash]
    rw [if_neg (h c (List.mem_cons_self c cs))]
    rw [ih (fun x hx => h x (List.mem_cons_of_mem c hx))]

theorem macronToDash_no_macron (l : List Char) (h : ∀ c ∈ l, c ≠ '¯') :
    macronToDash l = l := by
  unfold macronToDash
  rw [show l.map (fun c => if c = '¯' then '-' else c) = l.map id from ?side, List.map_id]
  case side =>
    apply List.map_congr_left
    intro c hc
    simp [h c hc]

/-- The decimal digits parse back through `atoi`. -/
theorem atoi_natDec (n : Nat) : atoi (natDec n) = some (n : Int) := by
  have hne := natDec_ne_nil n
  cases hl : natDec n with
  | nil => exact absurd hl hne
  | cons c cs =>
    have hdig : c.isDigit = true := by
      apply natDec_digits n
      rw [hl]
      exact List.mem_cons_self c cs
    simp only [atoi]
    rw [if_neg (isDigit_ne_dash hdig), if_neg (isDigit_ne_plus hdig)]
    rw [← hl, parseDigits_natDec]
    rfl

/-- Element round trip: the default rendering of an integer parses back to
the same integer (`ParseInt` of `Int.String` under no registered format). -/
theorem parseInt_intLex (i : Int) : ParseInt (replaceFirstDash (intDec i)) = some i := by
  unfold intDec
  by_cases h : i < 0
  · rw [if_pos h]
    have hstep : replaceFirstDash ('-' :: natDec i.natAbs) = '¯' :: natDec i.natAbs := by
      simp [replaceFirstDash]
    rw [hstep]
    unfold ParseInt macronToDash
    simp only [List.map_cons, if_pos rfl]
    rw [show (natDec i.natAbs).map (fun c => if c = '¯' then '-' else c) = natDec i.natAbs from ?mnop]
    case mnop =>
      apply macronToDash_no_macron
      intro c hc
      exact isDigit_ne_macron (natDec_digits _ c hc)
    simp only [atoi, if_pos rfl]
    rw [parseDigits_natDec]
    show some (-(i.natAbs : Int)) = some i
    congr 1
    omega
  · rw [if_neg h]
    rw [replaceFirstDash_no_dash _ (fun c hc => isDigit_ne_dash (natDec_digits _ c hc))]
    unfold ParseInt
    rw [macronToDash_no_macron _ (fun c hc => isDigit_ne_macron (natDec_digits _ c hc))]
    rw [atoi_natDec]
    congr 1
    omega

/-! ## printf lemmas and C9 -/

/-- A verb-free format renders literally. -/
theorem sprintfInt_no_pct (q : List Char) (i : Int) (h : ∀ c ∈ q, c ≠ '%') :
    sprintfInt q i = q := by
  induction q with
  | nil => rfl
  | cons c cs ih =>
    simp only [sprintfInt]
    rw [if_neg (h c (List.mem_cons_self c cs))]
    rw [ih (fun x hx => h x (List.mem_cons_of_mem c hx))]

/-- A format `p%dq` with verb-free `p` renders the prefix, the integer,
then the rest of the format. -/
theorem sprintfInt_pfx_verb (p : List Char) (q : List Char) (i : Int)
    (hp : ∀ c ∈ p, c ≠ '%') :
    sprintfInt (p ++ '%' :: 'd' :: q) i = p ++ intDec i ++ sprintfInt q i := by
  induction p with
  | nil =>
    simp only [List.nil_append, sprintfInt, sprintfVerb]
    simp
  | cons c cs ih =>
    simp only [List.cons_append, sprintfInt, List.append_eq]
    rw [if_neg (hp c (List.mem_cons_self c cs))]
    rw [ih (fun x hx => hp x (List.mem_cons_of_mem c hx))]

/-- C9 (amended): with no registered format string, `Int.String` renders
the decimal digits with `¯` prefixed to negatives; with a registered
format `p%dq` (`p`, `q` verb-free) not starting with `-`, it renders the
printf output with the first `-` character of the whole output — whether
or not it is the number's minus sign — rewritten to `¯`; with a registered
format `-p%dq`, the leading `-` is stripped and no rewriting occurs. -/
theorem intString_spec (pp : Int) (i : Int) (p q : List Char)
    (hp : ∀ c ∈ p, c ≠ '%') (hq : ∀ c ∈ q, c ≠ '%') :
    (intString ⟨pp, []⟩ i =
      if i < 0 then '¯' :: natDec i.natAbs else natDec i.toNat) ∧
    (p.headD ' ' ≠ '-' →
      intString ⟨pp, [(TypeKey.intT, String.mk (p ++ '%' :: 'd' :: q))]⟩ i =
        replaceFirstDash (p ++ intDec i ++ q)) ∧
    (intString ⟨pp, [(TypeKey.intT, String.mk ('-' :: p ++ '%' :: 'd' :: q))]⟩ i =
      p ++ intDec i ++ q) := by
  have hverb : sprintfInt ['%', 'v'] i = intDec i := by
    simp [sprintfInt, sprintfVerb]
  refine ⟨?_, ?_, ?_⟩
  · show replaceFirstDash (sprintfInt ['%', 'v'] i) = _
    rw [hverb]
    unfold intDec
    by_cases h : i < 0
    · rw [if_pos h, if_pos h]
      simp [replaceFirstDash]
    · rw [if_neg h, if_neg h]
      exact replaceFirstDash_no_dash _
        (fun c hc => isDigit_ne_dash (natDec_digits _ c hc))
  · intro hhead
    have hf : (Format.fmtFor ⟨pp, [(TypeKey.intT, String.mk (p ++ '%' :: 'd' :: q))]⟩
        TypeKey.intT).toList = p ++ '%' :: 'd' :: q := rfl
    unfold intString
    rw [hf]
    have hcond : ¬((p ++ '%' :: 'd' :: q).length > 1 ∧
        (p ++ '%' :: 'd' :: q).headD ' ' = '-') := by
      intro hc
      apply hhead
      cases p with
      | nil => simp at hc
      | cons a as => simpa using hc.2
    rw [if_neg hcond]
    rw [if_neg (by simp : ¬(p ++ '%' :: 'd' :: q = []))]
    rw [sprintfInt_pfx_verb p q i hp, sprintfInt_no_pct q i hq]
  · have hf : (Format.fmtFor ⟨pp, [(TypeKey.intT, String.mk ('-' :: p ++ '%' :: 'd' :: q))]⟩
        TypeKey.intT).toList = '-' :: p ++ '%' :: 'd' :: q := rfl
    unfold intString
    rw [hf]
    have hcond : (('-' :: p ++ '%' :: 'd' :: q).length > 1 ∧
        ('-' :: p ++ '%' :: 'd' :: q).headD ' ' = '-') := by
      constructor
      · simp
      · rfl
    rw [if_pos hcond]
    simp only [List.cons_append, List.drop_succ_cons, List.drop_zero]
    rw [if_neg (by simp : ¬(p ++ '%' :: 'd' :: q = []))]
    rw [sprintfInt_pfx_verb p q i hp, sprintfInt_no_pct q i hq]

/-- C9 (witness): at format `"x%d"` and argument `-7` the second clause of
the specification applies and yields `x¯7`. -/
theorem intString_spec_witness :
    (∀ c ∈ ['x'], c ≠ '%') ∧ (['x'].headD ' ' ≠ '-') ∧
    intString ⟨0, [(TypeKey.intT, String.mk ['x', '%', 'd'])]⟩ (-7) =
      replaceFirstDash (['x'] ++ intDec (-7) ++ []) :=
  ⟨by decide, by decide,
    ((intString_spec 0 (-7) ['x'] [] (by decide) (by decide)).2.1 (by decide))⟩

theorem intString_literal_dash_rewritten :
    String.mk (intString ⟨0, [(TypeKey.intT, "a-b%d")]⟩ 5) = "a¯b5" ∧
    ("a¯b5" : String) ≠ "a-b5" :=
  ⟨rfl, by decide⟩

/-! ## Formatter lemmas: `vString` characterization -/

theorem vListDepth_le {vs : List V} {x : V} (hx : x ∈ vs) : vDepth x ≤ vListDepth vs := by
  induction vs with
  | nil => simp at hx
  | cons a as ih =>
    rcases List.mem_cons.mp hx with h | h
    · rw [h]
      simp [vListDepth]
    · calc vDepth x ≤ vListDepth as := ih h
        _ ≤ vListDepth (a :: as) := by simp [vListDepth]

theorem vPairsDepth_le {ps : List (V × V)} {ab : V × V} (hab : ab ∈ ps) :
    vDepth ab.1 ≤ vPairsDepth ps ∧ vDepth ab.2 ≤ vPairsDepth ps := by
  induction ps with
  | nil => simp at hab
  | cons p rest ih =>
    obtain ⟨a, b⟩ := p
    rcases List.mem_cons.mp hab with h | h
    · rw [h]
      constructor <;> simp [vPairsDepth]
    · have := ih h
      constructor
      · calc vDepth ab.1 ≤ vPairsDepth rest := this.1
          _ ≤ vPairsDepth ((a, b) :: rest) := by simp [vPairsDepth]
      · calc vDepth ab.2 ≤ vPairsDepth rest := this.2
          _ ≤ vPairsDepth ((a, b) :: rest) := by simp [vPairsDepth]

theorem vDepth_pos (v : V) : 1 ≤ vDepth v := by
  cases v <;> simp [vDepth]

/-- The formatter result does not depend on the budget once it covers the
value's depth. -/
theorem vStringF_congr (f : Format) : ∀ (n m : Nat) (v : V), vDepth v ≤ n → vDepth v ≤ m →
    vStringF f n v = vStringF f m v := by
  intro n
  induction n with
  | zero =>
    intro m v hn _
    have := vDepth_pos v
    omega
  | succ n ih =>
    intro m v hn hm
    cases m with
    | zero =>
      have := vDepth_pos v
      omega
    | succ m =>
      cases v with
      | int i => rfl
      | str s => rfl
      | emptyArray => rfl
      | mixed d vs =>
        simp only [vStringF]
        congr 1
        apply List.map_congr_left
        intro x hx
        have hd := vListDepth_le hx
        have hn2 : vDepth x ≤ n := by
          simp only [vDepth] at hn
          omega
        have hm2 : vDepth x ≤ m := by
          simp only [vDepth] at hm
          omega
        exact ih m x hn2 hm2
      | dict ks M =>
        simp only [vStringF]
        congr 1
        apply List.map_congr_left
        intro ab hab
        have hd := vPairsDepth_le hab
        have hn2 : vPairsDepth M ≤ n := by
          simp only [vDepth] at hn
          omega
        have hm2 : vPairsDepth M ≤ m := by
          simp only [vDepth] at hm
          omega
        rw [ih m ab.1 (by omega) (by omega), ih m ab.2 (by omega) (by omega)]

/-- `Value.String` on an array formats the shape and the elements'
strings through `ArrayString`. -/
theorem vString_mixed (f : Format) (d : List Nat) (vs : List V) :
    vString f (.mixed d vs) = ArrayString f d (vs.map (vString f)) := by
  show vStringF f (vDepth (V.mixed d vs)) (V.mixed d vs) = _
  rw [show vDepth (V.mixed d vs) = vListDepth vs + 1 from rfl]
  simp only [vStringF]
  congr 1
  apply List.map_congr_left
  intro x hx
  exact vStringF_congr f (vListDepth vs) (vDepth x) x (vListDepth_le hx) (le_refl _)

theorem range_getD_self {α : Type} (l : List α) (d : α) :
    (List.range l.length).map (fun i => l.getD i d) = l := by
  apply List.ext_getElem
  · simp
  · intro i h1 h2
    simp only [List.getElem_map, List.getElem_range]
    rw [List.getD_eq_getElem l d h2]

/-! ## C5 -/

/-- C5: under the default modes (`PP ≥ -1`) an empty-shape array prints
the empty string, a rank-1 array prints its elements' formatted strings
joined by single spaces, and a scalar — a non-array value such as an
`Int` — prints its single element through its own `String` method. -/
theorem arrayString_default (f : Format) (vs : List V) (i : Int) (hpp : -1 ≤ f.PP) :
    vString f (.mixed [] vs) = "" ∧
    vString f (.mixed [vs.length] vs) = String.intercalate " " (vs.map (vString f)) ∧
    vString f (.int i) = String.mk (intString f i) := by
  have h2 : f.PP ≠ -2 := by omega
  have h3 : f.PP ≠ -3 := by omega
  refine ⟨?_, ?_, rfl⟩
  · rw [vString_mixed]
    unfold ArrayString
    rw [if_neg h2, if_neg h3]
  · rw [vString_mixed]
    unfold ArrayString
    rw [if_neg h2, if_neg h3]
    have hl : (vs.map (vString f)).length = vs.length := List.length_map vs _
    have key : (List.range vs.length).map (fun i => (vs.map (vString f)).getD i "") =
        vs.map (vString f) := by
      conv_lhs => rw [← hl]
      exact range_getD_self _ _
    simp only []
    rw [key]

/-- C5 (witness): at `PP = 0` the empty-shape array prints empty, the
two-element integer vector prints its elements space-joined, and the
scalar 5 prints through `Int.String`. -/
theorem arrayString_default_witness :
    (-1 ≤ (0 : Int)) ∧
    (vString ⟨0, []⟩ (.mixed [] [V.int 9]) = "" ∧
     vString ⟨0, []⟩ (.mixed [2] [V.int 1, V.int (-2)]) =
       String.intercalate " " ([V.int 1, V.int (-2)].map (vString ⟨0, []⟩)) ∧
     vString ⟨0, []⟩ (.int 5) = String.mk (intString ⟨0, []⟩ 5)) :=
  ⟨by norm_num,
    ⟨(arrayString_default ⟨0, []⟩ [V.int 9] 5 (by norm_num)).1,
     (arrayString_default ⟨0, []⟩ [V.int 1, V.int (-2)] 5 (by norm_num)).2.1,
     (arrayString_default ⟨0, []⟩ [] 5 (by norm_num)).2.2⟩⟩

/-! ## C4, amended -/

theorem intercalate_cons_cons (s a b : String) (l : List String) :
    String.intercalate s (a :: b :: l) = a ++ s ++ String.intercalate s (b :: l) := by
  show String.intercalate.go a s (b :: l) = a ++ s ++ String.intercalate.go b s l
  induction l generalizing a b with
  | nil => simp [String.intercalate.go]
  | cons c cs ih =>
    rw [String.intercalate.go, ih, ih]
    simp [String.append_assoc]

theorem intercalate_cons_of_ne_nil (s a : String) (l : List String) (h : l ≠ []) :
    String.intercalate s (a :: l) = a ++ s ++ String.intercalate s l := by
  cases l with
  | nil => exact absurd rfl h
  | cons b bs => exact intercalate_cons_cons s a b bs

/-- The `matArray` row loop produces the semicolon-joined comma rows. -/
theorem matBody_rows (strs : List String) (k m : Nat) :
    ∀ rem i off, i + rem = m →
      matBody strs k m rem i off =
        String.intercalate ";" ((List.range rem).map (fun r =>
          String.intercalate "," ((strs.drop (off + r * k)).take k))) := by
  intro rem
  induction rem with
  | zero => intro i off _; rfl
  | succ rem ih =>
    intro i off hm
    rw [show matBody strs k m (rem + 1) i off =
        String.intercalate "," ((strs.drop off).take k) ++
          (if i < m - 1 then ";" else "") ++ matBody strs k m rem (i + 1) (off + k) from rfl]
    rw [ih (i + 1) (off + k) (by omega)]
    rw [List.range_succ_eq_map, List.map_cons, List.map_map]
    have hshift : (List.range rem).map ((fun r =>
          String.intercalate "," ((strs.drop (off + r * k)).take k)) ∘ Nat.succ) =
        (List.range rem).map (fun r =>
          String.intercalate "," ((strs.drop (off + k + r * k)).take k)) := by
      apply List.map_congr_left
      intro r _
      simp only [Function.comp]
      have harith : off + Nat.succ r * k = off + k + r * k := by
        rw [Nat.succ_mul]
        ring
      rw [harith]
    rw [hshift]
    simp only [Nat.zero_mul, Nat.add_zero]
    cases rem with
    | zero =>
      rw [if_neg (show ¬ i < m - 1 by omega)]
      simp [String.intercalate]
      rfl
    | succ rem2 =>
      rw [if_pos (show i < m - 1 by omega)]
      rw [intercalate_cons_of_ne_nil ";" _ _ (by simp)]


/-- C4 (amended): under `PP = -3` (which `ArrayString` routes to
`matArray`), a rank-1 array yields the bracketed comma literal, a rank-2
`m×k` array yields the bracketed comma/semicolon literal `[a,b;c,d]`, and
an array of any other rank — in particular rank greater than 2 — yields
the placeholder string `"[rank error]"`; no error is signalled. -/
theorem matArray_rank_spec (f : Format) (hpp : f.PP = -3) (strs : List String)
    (d m k : Nat) (dims : List Nat) :
    (ArrayString f [d] strs = "[" ++ String.intercalate "," strs ++ "]") ∧
    (ArrayString f [m, k] strs =
      "[" ++ String.intercalate ";" ((List.range m).map (fun r =>
        String.intercalate "," ((strs.drop (r * k)).take k))) ++ "]") ∧
    (dims.length ≠ 1 → dims.length ≠ 2 → ArrayString f dims strs = "[rank error]") := by
  have h2 : f.PP ≠ -2 := by rw [hpp]; decide
  refine ⟨?_, ?_, ?_⟩
  · unfold ArrayString
    rw [if_neg h2, if_pos hpp]
    rfl
  · unfold ArrayString
    rw [if_neg h2, if_pos hpp]
    unfold matArrayS
    simp only []
    rw [if_neg (by simp : ¬([m, k] : List Nat).length = 1)]
    rw [if_neg (by simp : ¬([m, k] : List Nat).length ≠ 2)]
    rw [show (([m, k] : List Nat).getD 1 0) = k from rfl,
      show (([m, k] : List Nat).getD 0 0) = m from rfl]
    rw [matBody_rows strs k m m 0 0 (by omega)]
    simp only [Nat.zero_add]
  · intro h1 hr2
    unfold ArrayString
    rw [if_neg h2, if_pos hpp]
    unfold matArrayS
    simp only []
    rw [if_neg (by simpa using h1), if_pos (by simpa using hr2)]

/-- C4 (witness): the matrix-literal form of a concrete 2×2 array and the
placeholder for a concrete rank-3 shape. -/
theorem matArray_rank_spec_witness :
    (fmtMat.PP = -3) ∧
    ArrayString fmtMat [2, 2] ["1", "2", "3", "4"] = "[1,2;3,4]" ∧
    ArrayString fmtMat [1, 1, 2] ["1", "2"] = "[rank error]" := by
  refine ⟨rfl, ?_, ?_⟩
  · rw [(matArray_rank_spec fmtMat rfl ["1", "2", "3", "4"] 4 2 2 [1, 1, 2]).2.1]
    rfl
  · exact (matArray_rank_spec fmtMat rfl ["1", "2"] 4 2 2 [1, 1, 2]).2.2
      (by decide) (by decide)


/-! ## Dict lemmas and C7 -/

theorem vEq_scalar_iff {a : V} (b : V) (ha : a.isScalar) : vEq a b = true ↔ a = b := by
  cases a <;> cases b <;> simp_all [vEq, V.isScalar]

theorem vEq_refl_scalar {a : V} (ha : a.isScalar) : vEq a a = true :=
  (vEq_scalar_iff a ha).mpr rfl

theorem dictAt_eq_none_iff {M : List (V × V)} (hM : ∀ p ∈ M, (p.1 : V).isScalar) (k : V) :
    dictAt M k = none ↔ k ∉ M.map Prod.fst := by
  unfold dictAt
  rw [Option.map_eq_none', List.find?_eq_none]
  constructor
  · intro h hk
    obtain ⟨p, hp, he⟩ := List.mem_map.mp hk
    exact absurd (by simpa using (vEq_scalar_iff k (hM p hp)).mpr he) (h p hp)
  · intro h p hp hv
    exact h (List.mem_map.mpr ⟨p, hp, (vEq_scalar_iff k (hM p hp)).mp (by simpa using hv)⟩)

/-- Map-update of a present key: lookup finds the new value. -/
theorem dictAt_map_update {M : List (V × V)} (k w : V) (h : (dictAt M k).isSome) :
    dictAt (M.map (fun p => if vEq p.1 k then (p.1, w) else p)) k = some w := by
  induction M with
  | nil => simp [dictAt] at h
  | cons a rest ih =>
    by_cases hv : vEq a.1 k = true
    · simp only [List.map_cons, if_pos hv]
      unfold dictAt
      rw [List.find?_cons_of_pos _ (by simpa using hv)]
      rfl
    · simp only [List.map_cons, if_neg hv]
      unfold dictAt
      rw [List.find?_cons_of_neg _ (by simpa using hv)]
      have hrest : (dictAt rest k).isSome := by
        unfold dictAt at h
        rw [List.find?_cons_of_neg _ (by simpa using hv)] at h
        exact h
      exact ih hrest

/-- Appending a fresh key: lookup finds the appended value. -/
theorem dictAt_append_single {M : List (V × V)} (k w : V) (hk : vEq k k = true)
    (h : dictAt M k = none) : dictAt (M ++ [(k, w)]) k = some w := by
  induction M with
  | nil =>
    unfold dictAt
    rw [List.nil_append, List.find?_cons_of_pos _ (by simpa using hk)]
    rfl
  | cons a rest ih =>
    have hv : ¬ (vEq a.1 k = true) := by
      intro hc
      unfold dictAt at h
      rw [List.find?_cons_of_pos _ (by simpa using hc)] at h
      simp at h
    have hrest : dictAt rest k = none := by
      unfold dictAt at h
      rw [List.find?_cons_of_neg _ (by simpa using hv)] at h
      exact h
    unfold dictAt
    rw [List.cons_append, List.find?_cons_of_neg _ (by simpa using hv)]
    exact ih hrest


/-- A sequence of `Set` operations applied to a dict state (the Go loop
`for kv := range ops { d.Set(kv...) }`). -/
def dfold (ops : List (V × V)) (st : List V × List (V × V)) : List V × List (V × V) :=
  ops.foldl (fun st kv => dictSet st.1 st.2 kv.1 kv.2) st

/-- The operations' keys in first-insertion order, without duplicates. -/
def firstKeys (ops : List (V × V)) : List V :=
  ops.foldl (fun acc kv => if acc.any (fun x => vEq x kv.1) then acc else acc ++ [kv.1]) []

theorem any_vEq_iff {K : List V} (k : V) (hK : ∀ x ∈ K, (x : V).isScalar) :
    K.any (fun x => vEq x k) = true ↔ k ∈ K := by
  rw [List.any_eq_true]
  constructor
  · rintro ⟨x, hx, he⟩
    have := (vEq_scalar_iff k (hK x hx)).mp (by simpa using he)
    rw [← this]
    exact hx
  · intro hk
    exact ⟨k, hk, by simpa using vEq_refl_scalar (hK k hk)⟩

theorem dictSet_step (K : List V) (M : List (V × V)) (k v2 : V)
    (hk : k.isScalar) (hM : ∀ p ∈ M, (p.1 : V).isScalar) (hKM : M.map Prod.fst = K) :
    (dictSet K M k v2).1 = (if K.any (fun x => vEq x k) then K else K ++ [k]) ∧
    (dictSet K M k v2).2.map Prod.fst = (if K.any (fun x => vEq x k) then K else K ++ [k]) ∧
    (∀ p ∈ (dictSet K M k v2).2, (p.1 : V).isScalar) := by
  have hKsc : ∀ x ∈ K, (x : V).isScalar := by
    intro x hx
    rw [← hKM] at hx
    obtain ⟨p, hp, he⟩ := List.mem_map.mp hx
    rw [← he]
    exact hM p hp
  have hpres : (dictAt M k).isSome = K.any (fun x => vEq x k) := by
    by_cases hin : k ∈ K
    · rw [(any_vEq_iff k hKsc).mpr hin]
      rw [Option.isSome_iff_ne_none]
      simp only [ne_eq, dictAt_eq_none_iff hM k, hKM]
      simpa using hin
    · have h1 : K.any (fun x => vEq x k) = false := by
        rw [← Bool.not_eq_true]
        intro hc
        exact hin ((any_vEq_iff k hKsc).mp hc)
      rw [h1]
      have h2 : dictAt M k = none := by
        rw [dictAt_eq_none_iff hM k, hKM]
        exact hin
      rw [h2]
      rfl
  have e1 : (dictSet K M k v2).1 = if (dictAt M k).isSome then K else K ++ [k] := rfl
  have e2 : (dictSet K M k v2).2 =
      if (dictAt M k).isSome then M.map (fun p => if vEq p.1 k then (p.1, v2) else p)
      else M ++ [(k, v2)] := rfl
  refine ⟨by rw [e1, hpres], ?_, ?_⟩
  · rw [e2, hpres]
    by_cases hc : K.any (fun x => vEq x k) = true
    · rw [if_pos hc, if_pos hc, List.map_map]
      rw [show (Prod.fst ∘ fun p => if vEq p.1 k then (p.1, v2) else p) =
          (Prod.fst : V × V → V) from ?eqf]
      · exact hKM
      case eqf =>
        funext p
        by_cases hv : vEq p.1 k = true <;> simp [Function.comp, hv]
    · rw [if_neg hc, if_neg hc, List.map_append, hKM]
      rfl
  · intro p hp
    rw [e2, hpres] at hp
    by_cases hc : K.any (fun x => vEq x k) = true
    · rw [if_pos hc] at hp
      obtain ⟨q, hq, he⟩ := List.mem_map.mp hp
      by_cases hv : vEq q.1 k = true
      · rw [← he]
        simp only [if_pos hv]
        exact hM q hq
      · rw [← he]
        simp only [if_neg hv]
        exact hM q hq
    · rw [if_neg hc] at hp
      rcases List.mem_append.mp hp with h | h
      · exact hM p h
      · simp only [List.mem_singleton] at h
        rw [h]
        exact hk

theorem dfold_inv (ops : List (V × V)) :
    ∀ K M, (∀ kv ∈ ops, ((kv : V × V).1).isScalar) →
      (∀ p ∈ M, ((p : V × V).1).isScalar) →
      M.map Prod.fst = K → K.Nodup →
      (∀ p ∈ (dfold ops (K, M)).2, ((p : V × V).1).isScalar) ∧
      (dfold ops (K, M)).2.map Prod.fst = (dfold ops (K, M)).1 ∧
      (dfold ops (K, M)).1.Nodup ∧
      (dfold ops (K, M)).1 =
        ops.foldl (fun acc kv => if acc.any (fun x => vEq x kv.1) then acc
          else acc ++ [kv.1]) K := by
  induction ops with
  | nil =>
    intro K M _ hM hKM hnd
    exact ⟨hM, hKM, hnd, rfl⟩
  | cons kv rest ih =>
    intro K M hs hM hKM hnd
    have hk : ((kv : V × V).1).isScalar := hs kv (List.mem_cons_self kv rest)
    obtain ⟨e1, e2, e3⟩ := dictSet_step K M kv.1 kv.2 hk hM hKM
    have hKsc : ∀ x ∈ K, (x : V).isScalar := by
      intro x hx
      rw [← hKM] at hx
      obtain ⟨p, hp, he⟩ := List.mem_map.mp hx
      rw [← he]
      exact hM p hp
    have hnd2 : (dictSet K M kv.1 kv.2).1.Nodup := by
      rw [e1]
      by_cases hc : K.any (fun x => vEq x kv.1) = true
      · rw [if_pos hc]
        exact hnd
      · rw [if_neg hc]
        rw [List.nodup_append]
        refine ⟨hnd, List.nodup_singleton _, ?_⟩
        intro x hx hx2
        simp only [List.mem_singleton] at hx2
        rw [hx2] at hx
        exact hc ((any_vEq_iff kv.1 hKsc).mpr hx)
    have step : dfold (kv :: rest) (K, M) = dfold rest (dictSet K M kv.1 kv.2) := rfl
    rw [step]
    have e12 : (dictSet K M kv.1 kv.2).2.map Prod.fst = (dictSet K M kv.1 kv.2).1 :=
      e2.trans e1.symm
    have hres := ih (dictSet K M kv.1 kv.2).1 (dictSet K M kv.1 kv.2).2
      (fun kv2 h2 => hs kv2 (List.mem_cons_of_mem kv h2)) e3 e12 hnd2
    refine ⟨?_, ?_, ?_, ?_⟩
    · simpa using hres.1
    · simpa using hres.2.1
    · simpa using hres.2.2.1
    · rw [List.foldl_cons]
      have := hres.2.2.2
      simp only [show ((dictSet K M kv.1 kv.2).1, (dictSet K M kv.1 kv.2).2) =
        dictSet K M kv.1 kv.2 from rfl] at this
      rw [this, e1]

theorem mem_firstFold (k : V) : ∀ (ops : List (V × V)) (acc : List V),
    (∀ kv ∈ ops, ((kv : V × V).1).isScalar) → (∀ x ∈ acc, (x : V).isScalar) →
    (k ∈ ops.foldl (fun acc kv => if acc.any (fun x => vEq x kv.1) then acc
        else acc ++ [kv.1]) acc
      ↔ k ∈ acc ∨ k ∈ ops.map Prod.fst) := by
  intro ops
  induction ops with
  | nil =>
    intro acc _ _
    simp
  | cons kv rest ih =>
    intro acc hs hacc
    have hk : ((kv : V × V).1).isScalar := hs kv (List.mem_cons_self kv rest)
    simp only [List.foldl_cons, List.map_cons]
    by_cases hc : acc.any (fun x => vEq x kv.1) = true
    · rw [if_pos hc]
      have hin : kv.1 ∈ acc := (any_vEq_iff kv.1 hacc).mp hc
      rw [ih acc (fun kv2 h2 => hs kv2 (List.mem_cons_of_mem kv h2)) hacc]
      rw [List.mem_cons]
      constructor
      · rintro (h | h)
        · exact Or.inl h
        · exact Or.inr (Or.inr h)
      · rintro (h | h | h)
        · exact Or.inl h
        · rw [h]; exact Or.inl hin
        · exact Or.inr h
    · rw [if_neg hc]
      have hacc2 : ∀ x ∈ acc ++ [kv.1], (x : V).isScalar := by
        intro x hx
        rcases List.mem_append.mp hx with h | h
        · exact hacc x h
        · simp only [List.mem_singleton] at h
          rw [h]
          exact hk
      rw [ih (acc ++ [kv.1]) (fun kv2 h2 => hs kv2 (List.mem_cons_of_mem kv h2)) hacc2]
      rw [List.mem_append, List.mem_singleton, List.mem_cons]
      tauto

theorem dictSet_at_self (K : List V) (M : List (V × V)) (k w : V) (hk : k.isScalar) :
    dictAt (dictSet K M k w).2 k = some w := by
  unfold dictSet
  by_cases hp : (dictAt M k).isSome
  · simp only [hp, if_true]
    exact dictAt_map_update k w hp
  · simp only [hp, if_false]
    have hnone : dictAt M k = none := Option.not_isSome_iff_eq_none.mp (by simpa using hp)
    exact dictAt_append_single k w (vEq_refl_scalar hk) hnone

theorem dictSet_keys_of_mem (K : List V) (M : List (V × V)) (k w : V)
    (hM : ∀ p ∈ M, ((p : V × V).1).isScalar) (hKM : M.map Prod.fst = K) (hkK : k ∈ K) :
    (dictSet K M k w).1 = K := by
  have hsome : (dictAt M k).isSome := by
    rw [Option.isSome_iff_ne_none]
    intro hn
    rw [dictAt_eq_none_iff hM k, hKM] at hn
    exact hn hkK
  unfold dictSet
  simp only [hsome, if_true]

/-- C7: starting from the zero-valued Dict and applying any sequence of
`Set` operations with (comparable) scalar keys: the key list has no
duplicates and lists the keys in first-insertion order; `At` returns
absent exactly for keys never set; and a further `Set` stores its value
while leaving the key list unchanged when the key is already present. -/
theorem dict_invariant (ops : List (V × V))
    (hs : ∀ kv ∈ ops, ((kv : V × V).1).isScalar) :
    ((dfold ops ([], [])).1.Nodup) ∧
    ((dfold ops ([], [])).1 = firstKeys ops) ∧
    (∀ k : V, k.isScalar →
      (dictAt (dfold ops ([], [])).2 k = none ↔ k ∉ ops.map Prod.fst)) ∧
    (∀ k w : V, k.isScalar →
      dictAt (dictSet (dfold ops ([], [])).1 (dfold ops ([], [])).2 k w).2 k = some w ∧
      (k ∈ dictKeys (dfold ops ([], [])).1 (dfold ops ([], [])).2 →
        (dictSet (dfold ops ([], [])).1 (dfold ops ([], [])).2 k w).1 =
          (dfold ops ([], [])).1)) := by
  obtain ⟨i1, i2, i3, i4⟩ := dfold_inv ops [] [] hs (by simp) rfl List.nodup_nil
  refine ⟨i3, i4, ?_, ?_⟩
  · intro k hk
    rw [dictAt_eq_none_iff i1 k, i2, i4]
    rw [mem_firstFold k ops [] hs (by simp)]
    simp
  · intro k w hk
    refine ⟨dictSet_at_self _ _ k w hk, ?_⟩
    intro hmem
    exact dictSet_keys_of_mem _ _ k w i1 i2 hmem

/-- C7 (witness): a concrete operation sequence with a repeated scalar
key. -/
theorem dict_invariant_witness :
    (∀ kv ∈ [(V.int 1, V.int 10), (V.int 2, V.int 20), (V.int 1, V.int 30)],
      ((kv : V × V).1).isScalar) ∧
    ((dfold [(V.int 1, V.int 10), (V.int 2, V.int 20), (V.int 1, V.int 30)] ([], [])).1.Nodup) :=
  ⟨by decide,
    (dict_invariant [(V.int 1, V.int 10), (V.int 2, V.int 20), (V.int 1, V.int 30)]
      (by decide)).1⟩


/-! ## Scan lemmas and C3 -/

/-- A successful fill that enters its loop ends with a shape whose product
is the element count. -/
theorem fillLoopF_ok (rank : Int) (nvals : Nat) :
    ∀ (fuel i : Nat) (shape s2 : List Nat),
      (rank + 1 : Int) < i + fuel →
      (i : Int) ≤ rank - shape.length →
      fillLoopF rank nvals fuel i shape = .ok s2 →
      shapeProd s2 = nvals := by
  intro fuel
  induction fuel with
  | zero =>
    intro i shape s2 hbud hcond h
    have h1 : (0 : Int) ≤ shape.length := by positivity
    omega
  | succ fuel ih =>
    intro i shape s2 hbud hcond h
    simp only [fillLoopF] at h
    rw [if_pos hcond] at h
    by_cases herr : shape.length ≠ 0 ∧ shapeProd shape = 0
    · rw [if_pos herr] at h
      simp at h
    · rw [if_neg herr] at h
      by_cases hchk : shapeProd (nvals / (if shape.length = 0 then 1 else shapeProd shape)
          :: shape) ≠ nvals
      · rw [if_pos hchk] at h
        simp at h
      · rw [if_neg hchk] at h
        by_cases hcond2 : ((i + 1 : Nat) : Int) ≤ rank -
            ((nvals / (if shape.length = 0 then 1 else shapeProd shape) :: shape).length)
        · exact ih (i + 1) _ s2 (by push_cast at *; omega) hcond2 h
        · have hs2 : s2 = nvals / (if shape.length = 0 then 1 else shapeProd shape)
              :: shape := by
            cases fuel with
            | zero =>
              have h2 : Except.ok (ε := String) (nvals /
                  (if shape.length = 0 then 1 else shapeProd shape) :: shape) = .ok s2 := h
              exact (Except.ok.inj h2).symm
            | succ fuel2 =>
              simp only [fillLoopF] at h
              rw [if_neg hcond2] at h
              exact (Except.ok.inj h).symm
          rw [hs2]
          exact not_not.mp hchk

/-- A successful `finishScan` yields an array whose shape product equals
its element count, provided a positive requested rank exceeds the inferred
shape length (always the case when the rune loop breaks or ends). -/
theorem finishScan_ok (rank : Int) (values : List V) (shape : List Nat)
    (d : List Nat) (vals : List V)
    (hcase : rank < 0 ∨ (shape.length : Int) < rank) :
    finishScan rank values shape = .ok (V.mixed d vals) →
    shapeProd d = vals.length := by
  intro h
  unfold finishScan at h
  by_cases hemp : values.isEmpty
  · rw [if_pos hemp] at h
    simp at h
  · rw [if_neg hemp] at h
    have h2 : Except.map (fun s => V.mixed s values)
        (fillLoopF (if rank < 0 then
            (if shapeProd shape = values.length then (shape.length : Int) - 1
             else (shape.length : Int)) else rank) values.length
          (((if rank < 0 then
            (if shapeProd shape = values.length then (shape.length : Int) - 1
             else (shape.length : Int)) else rank) + 1).toNat + 1) 0 shape) =
        .ok (V.mixed d vals) := h
    clear h
    set rank2 : Int := if rank < 0 then
        (if shapeProd shape = values.length then (shape.length : Int) - 1
         else (shape.length : Int))
      else rank with hrank2
    cases hf : fillLoopF rank2 values.length ((rank2 + 1).toNat + 1) 0 shape with
    | error e =>
      rw [hf] at h2
      simp [Except.map] at h2
    | ok s =>
      rw [hf] at h2
      simp only [Except.map] at h2
      have hinj : V.mixed s values = V.mixed d vals := Except.ok.inj h2
      have hd : s = d := by injection hinj
      have hv : values = vals := by injection hinj
      rcases lt_trichotomy rank 0 with hneg | hzero | hpos
      · by_cases hfit : shapeProd shape = values.length
        · have hr2 : rank2 = (shape.length : Int) - 1 := by
            rw [hrank2, if_pos hneg, if_pos hfit]
          have hcond0 : ¬ (((0 : Nat) : Int) ≤ rank2 - shape.length) := by
            rw [hr2]
            push_cast
            omega
          have hs : s = shape := by
            simp only [fillLoopF] at hf
            rw [if_neg hcond0] at hf
            exact (Except.ok.inj hf).symm
          rw [← hd, hs, ← hv]
          exact hfit
        · have hr2 : rank2 = (shape.length : Int) := by
            rw [hrank2, if_pos hneg, if_neg hfit]
          rw [← hv, ← hd]
          apply fillLoopF_ok rank2 values.length ((rank2 + 1).toNat + 1) 0 shape s ?bud ?cond hf
          case bud =>
            push_cast
            omega
          case cond =>
            rw [hr2]
            push_cast
            omega
      · rcases hcase with h1 | h1 <;> omega
      · have hlen : (shape.length : Int) < rank := by
          rcases hcase with h1 | h1
          · omega
          · exact h1
        have hr2 : rank2 = rank := by
          rw [hrank2, if_neg (by omega)]
        rw [← hv, ← hd]
        apply fillLoopF_ok rank2 values.length ((rank2 + 1).toNat + 1) 0 shape s ?bud2 ?cond2 hf
        case bud2 =>
          push_cast
          omega
        case cond2 =>
          rw [hr2]
          push_cast
          omega


/-- The rune-loop invariant: any mixed array coming out of `scanLoopF`
satisfies the shape/length law.  The counters stay below a positive
requested rank. -/
theorem scanLoopF_inv (rank : Int) : ∀ (fuel : Nat) (cs : List Char) (values : List V)
    (c : Nat) (shape : List Nat) (d : List Nat) (vals : List V),
    (rank = 0 → values = []) →
    (0 < rank → (c : Int) < rank) →
    (0 < rank → (shape.length : Int) < rank) →
    scanLoopF rank fuel cs values c shape = .ok (V.mixed d vals) →
    shapeProd d = vals.length := by
  intro fuel
  induction fuel with
  | zero =>
    intro cs values c shape d vals _ _ _ h
    simp [scanLoopF] at h
  | succ fuel ih =>
    intro cs values c shape d vals h0 hc hsh h
    cases cs with
    | nil =>
      by_cases hr0 : rank = 0
      · rw [hr0] at h
        rw [h0 hr0] at h
        simp [scanLoopF, finishScan] at h
      · refine finishScan_ok rank values shape d vals ?_ h
        rcases lt_trichotomy rank 0 with hlt | heq | hgt
        · exact Or.inl hlt
        · exact absurd heq hr0
        · exact Or.inr (hsh hgt)
    | cons r cs2 =>
      simp only [scanLoopF] at h
      by_cases h1 : r = '\n' ∨ r = ';' ∨ r = ']'
      · rw [if_pos h1] at h
        by_cases hve : values.isEmpty
        · rw [if_pos hve] at h
          exact ih cs2 values c shape d vals h0 hc hsh h
        · rw [if_neg hve] at h
          have hvne : values ≠ [] := by
            simpa [List.isEmpty_iff] using hve
          by_cases hbrk : ((c : Int) + 1 = rank)
          · rw [if_pos hbrk] at h
            refine finishScan_ok rank values shape d vals (Or.inr (hsh (by omega))) h
          · rw [if_neg hbrk] at h
            by_cases hgrow : c + 1 > shape.length
            · rw [if_pos hgrow] at h
              refine ih cs2 values (c + 1)
                (if shape = [] then [values.length]
                 else values.length / shapeProd shape :: shape) d vals
                h0 (fun hr => by have := hc hr; omega) (fun hr => ?_) h
              have hcr := hc hr
              by_cases hse : shape = []
              · rw [if_pos hse]
                simp only [List.length_singleton]
                omega
              · rw [if_neg hse]
                simp only [List.length_cons]
                push_cast
                omega
            · rw [if_neg hgrow] at h
              exact ih cs2 values (c + 1) shape d vals h0
                (fun hr => by have := hc hr; omega) hsh h
      · rw [if_neg h1] at h
        by_cases h2 : goIsSpace r ∨ r = ',' ∨ r = '[' ∨ r = '(' ∨ r = ')'
        · rw [if_pos h2] at h
          exact ih cs2 values c shape d vals h0 hc hsh h
        · rw [if_neg h2] at h
          by_cases h3 : r = '"'
          · rw [if_pos h3] at h
            cases hrs : readStrBody cs2 with
            | none =>
              rw [hrs] at h
              simp at h
            | some pr =>
              obtain ⟨sl, rest⟩ := pr
              rw [hrs] at h
              simp only at h
              by_cases hr0 : rank = 0
              · rw [if_pos hr0] at h
                simp at h
              · rw [if_neg hr0] at h
                refine ih rest (values ++ [V.str (String.mk sl)]) 0 shape d vals
                  (fun hz => absurd hz hr0) (fun hr => by positivity) hsh h
          · rw [if_neg h3] at h
            cases hsn : scanNumber (r :: cs2) with
            | mk lex rest =>
              rw [hsn] at h
              simp only at h
              cases htp : towerParse lex with
              | none =>
                rw [htp] at h
                simp at h
              | some v =>
                rw [htp] at h
                simp only at h
                by_cases hr0 : rank = 0
                · rw [if_pos hr0] at h
                  have hvint : ∃ n, v = V.int n := by
                    unfold towerParse at htp
                    obtain ⟨n, _, he⟩ := Option.map_eq_some'.mp htp
                    exact ⟨n, he.symm⟩
                  obtain ⟨n, hn⟩ := hvint
                  rw [hn] at h
                  simp at h
                · rw [if_neg hr0] at h
                  exact ih rest (values ++ [v]) 0 shape d vals
                    (fun hz => absurd hz hr0) (fun hr => by positivity) hsh h

/-- C3: every array successfully returned by `ScanRankArray` — and hence
by `ParseArray` — satisfies `length(Values) = Prod(Dims)`; when the
inferred shape cannot match the element count the scanner returns an error
instead (so no array violating the law is ever produced). -/
theorem scanRankArray_shape (rank : Int) (s : String) (d : List Nat) (vals : List V) :
    (ScanRankArray rank s = .ok (V.mixed d vals) → shapeProd d = vals.length) ∧
    (ParseArray s = .ok (V.mixed d vals) → shapeProd d = vals.length) := by
  constructor
  · intro h
    exact scanLoopF_inv rank _ s.toList [] 0 [] d vals (fun _ => rfl)
      (fun hr => by push_cast; omega) (fun hr => by push_cast; simpa) h
  · intro h
    have h2 : ScanRankArray (-1) s = .ok (V.mixed d vals) := by
      unfold ParseArray at h
      cases hs : ScanRankArray (-1) s with
      | error e =>
        rw [hs] at h
        simp at h
      | ok v =>
        rw [hs] at h
        have := Except.ok.inj h
        rw [this]
    exact scanLoopF_inv (-1) _ s.toList [] 0 [] d vals (fun hz => by omega)
      (fun hr => by omega) (fun hr => by omega) h2

/-- C3 (witness): a concrete successful scan. -/
theorem scanRankArray_shape_witness :
    ScanRankArray (-1) "1 2 3\n4 5 6" = .ok (V.mixed [2, 3]
      [V.int 1, V.int 2, V.int 3, V.int 4, V.int 5, V.int 6]) ∧
    shapeProd [2, 3] = ([V.int 1, V.int 2, V.int 3, V.int 4, V.int 5, V.int 6] : List V).length :=
  ⟨by rfl, (scanRankArray_shape (-1) "1 2 3\n4 5 6" [2, 3]
    [V.int 1, V.int 2, V.int 3, V.int 4, V.int 5, V.int 6]).1 (by rfl)⟩

/-! ## Round-trip lemmas (C1) -/

/-- The default rendering of one integer element (`Int.String` with no
registered format). -/
def intLex (i : Int) : List Char := replaceFirstDash (intDec i)

/-- The rendered elements joined by a single separator character. -/
def sepChars (sep : Char) : List Int → List Char
  | [] => []
  | [x] => intLex x
  | x :: y :: t => intLex x ++ sep :: sepChars sep (y :: t)

theorem intString_no_fmt (pp : Int) (i : Int) :
    intString ⟨pp, []⟩ i = intLex i := by
  show replaceFirstDash (sprintfInt ['%', 'v'] i) = _
  have hverb : sprintfInt ['%', 'v'] i = intDec i := by
    simp [sprintfInt, sprintfVerb]
  rw [hverb]
  rfl

theorem isDigit_numRune {c : Char} (h : c.isDigit = true) : numRune c = true := by
  simp [numRune, h]

theorem intLex_ne_nil (i : Int) : intLex i ≠ [] := by
  unfold intLex intDec
  by_cases h : i < 0
  · rw [if_pos h]
    simp [replaceFirstDash]
  · rw [if_neg h]
    rw [replaceFirstDash_no_dash _ (fun c hc => isDigit_ne_dash (natDec_digits _ c hc))]
    exact natDec_ne_nil _

theorem intLex_numRune (i : Int) : ∀ c ∈ intLex i, numRune c = true := by
  unfold intLex intDec
  by_cases h : i < 0
  · rw [if_pos h]
    rw [show replaceFirstDash ('-' :: natDec i.natAbs) = '¯' :: natDec i.natAbs from by
      simp [replaceFirstDash]]
    intro c hc
    rcases List.mem_cons.mp hc with h1 | h1
    · rw [h1]
      decide
    · exact isDigit_numRune (natDec_digits _ c h1)
  · rw [if_neg h]
    rw [replaceFirstDash_no_dash _ (fun c hc => isDigit_ne_dash (natDec_digits _ c hc))]
    intro c hc
    exact isDigit_numRune (natDec_digits _ c hc)

theorem towerParse_intLex (i : Int) : towerParse (intLex i) = some (V.int i) := by
  unfold towerParse intLex
  rw [parseInt_intLex]
  rfl

/-- A number rune falls through every earlier branch of the rune loop. -/
theorem numRune_reject {r : Char} (h : numRune r = true) :
    ¬(r = '\n' ∨ r = ';' ∨ r = ']') ∧
    ¬(goIsSpace r = true ∨ r = ',' ∨ r = '[' ∨ r = '(' ∨ r = ')') ∧
    ¬(r = '"') := by
  refine ⟨?_, ?_, ?_⟩
  · rintro (h1 | h1 | h1) <;> (rw [h1] at h; exact absurd h (by decide))
  · rintro (h1 | h1 | h1 | h1 | h1)
    · have h6 : ((((r = ' ' ∨ r = '\t') ∨ r = '\n') ∨ r = '\x0b') ∨ r = '\x0c') ∨
          r = '\x0d' := by
        simpa [goIsSpace] using h1
      rcases h6 with ((((h2 | h2) | h2) | h2) | h2) | h2 <;>
        (rw [h2] at h; exact absurd h (by decide))
    all_goals (rw [h1] at h; exact absurd h (by decide))
  · intro h1
    rw [h1] at h
    exact absurd h (by decide)

/-- `scanNumber` consumes exactly a maximal run of number runes. -/
theorem scanNumber_exact : ∀ (lex rest : List Char),
    (∀ c ∈ lex, numRune c = true) →
    (∀ c, rest.head? = some c → numRune c = false) →
    scanNumber (lex ++ rest) = (lex, rest) := by
  intro lex
  induction lex with
  | nil =>
    intro rest _ hrest
    cases rest with
    | nil => rfl
    | cons c cs =>
      have := hrest c rfl
      simp only [List.nil_append, scanNumber]
      rw [if_neg (by simp [this])]
  | cons c lex2 ih =>
    intro rest hall hrest
    simp only [List.cons_append, scanNumber, List.append_eq]
    rw [if_pos (hall c (List.mem_cons_self c lex2))]
    rw [ih rest (fun x hx => hall x (List.mem_cons_of_mem c hx)) hrest]

/-- One rune-loop step across a whole number lexeme. -/
theorem scan_number_step (rank : Int) (fuel : Nat) (lex rest : List Char)
    (values : List V) (c : Nat) (shape : List Nat) (v : V)
    (hne : lex ≠ []) (hall : ∀ c2 ∈ lex, numRune c2 = true)
    (hrest : ∀ c2, rest.head? = some c2 → numRune c2 = false)
    (htp : towerParse lex = some v) (hrk : rank ≠ 0) :
    scanLoopF rank (fuel + 1) (lex ++ rest) values c shape =
      scanLoopF rank fuel rest (values ++ [v]) 0 shape := by
  cases lex with
  | nil => exact absurd rfl hne
  | cons r lex2 =>
    have hr : numRune r = true := hall r (List.mem_cons_self r lex2)
    obtain ⟨hrej1, hrej2, hrej3⟩ := numRune_reject hr
    rw [List.cons_append]
    simp only [scanLoopF]
    rw [if_neg hrej1, if_neg hrej2, if_neg hrej3]
    rw [show scanNumber (r :: (lex2 ++ rest)) = ((r :: lex2), rest) from by
      rw [← List.cons_append]
      exact scanNumber_exact (r :: lex2) rest hall hrest]
    simp only
    rw [htp]
    simp only
    rw [if_neg hrk]

/-- One rune-loop step across a separator that is skipped. -/
theorem scan_skip_step (rank : Int) (fuel : Nat) (s : Char) (cs : List Char)
    (values : List V) (c : Nat) (shape : List Nat)
    (hterm : ¬(s = '\n' ∨ s = ';' ∨ s = ']'))
    (hskip : goIsSpace s = true ∨ s = ',' ∨ s = '[' ∨ s = '(' ∨ s = ')') :
    scanLoopF rank (fuel + 1) (s :: cs) values c shape =
      scanLoopF rank fuel cs values c shape := by
  simp only [scanLoopF]
  rw [if_neg hterm, if_pos hskip]

/-- Every rendered element has at least one character, so the separated
rendering of `n + 1` elements has at least `2 n + 1` characters. -/
theorem sepChars_length (sep : Char) : ∀ (t : List Int) (x : Int),
    2 * t.length + 1 ≤ (sepChars sep (x :: t)).length := by
  intro t
  induction t with
  | nil =>
    intro x
    have h2 : 1 ≤ (intLex x).length := List.length_pos.mpr (intLex_ne_nil x)
    simpa [sepChars] using h2
  | cons y t2 ih =>
    intro x
    have h1 := ih y
    have h2 : 1 ≤ (intLex x).length := List.length_pos.mpr (intLex_ne_nil x)
    simp only [sepChars, List.length_append, List.length_cons] at *
    omega

/-- The rune loop across a run of rendered elements joined by a skipped
separator: each element is scanned, parsed and appended, costing one fuel
step per element and one per separator. -/
theorem scan_sep (sep : Char)
    (hterm : ¬(sep = '\n' ∨ sep = ';' ∨ sep = ']'))
    (hskip : goIsSpace sep = true ∨ sep = ',' ∨ sep = '[' ∨ sep = '(' ∨ sep = ')')
    (hnum : numRune sep = false) :
    ∀ (t : List Int) (x : Int) (rank : Int) (fuel : Nat) (rest : List Char)
      (values : List V) (c : Nat) (shape : List Nat),
      (∀ c2, rest.head? = some c2 → numRune c2 = false) → rank ≠ 0 →
      scanLoopF rank (fuel + (2 * t.length + 1)) (sepChars sep (x :: t) ++ rest)
          values c shape =
        scanLoopF rank fuel rest (values ++ (x :: t).map V.int) 0 shape := by
  intro t
  induction t with
  | nil =>
    intro x rank fuel rest values c shape hrest hrk
    show scanLoopF rank (fuel + 1) (intLex x ++ rest) values c shape =
      scanLoopF rank fuel rest (values ++ [V.int x]) 0 shape
    exact scan_number_step rank fuel (intLex x) rest values c shape (V.int x)
      (intLex_ne_nil x) (intLex_numRune x) hrest (towerParse_intLex x) hrk
  | cons y t2 ih =>
    intro x rank fuel rest values c shape hrest hrk
    have harith : fuel + (2 * (y :: t2).length + 1) =
        ((fuel + (2 * t2.length + 1)) + 1) + 1 := by
      simp only [List.length_cons]
      omega
    rw [harith]
    show scanLoopF rank (((fuel + (2 * t2.length + 1)) + 1) + 1)
        ((intLex x ++ sep :: sepChars sep (y :: t2)) ++ rest) values c shape = _
    rw [List.append_assoc, List.cons_append]
    rw [scan_number_step rank ((fuel + (2 * t2.length + 1)) + 1) (intLex x)
      (sep :: (sepChars sep (y :: t2) ++ rest)) values c shape (V.int x)
      (intLex_ne_nil x) (intLex_numRune x)
      (fun c2 hc2 => (Option.some.inj hc2) ▸ hnum) (towerParse_intLex x) hrk]
    rw [scan_skip_step rank (fuel + (2 * t2.length + 1)) sep
      (sepChars sep (y :: t2) ++ rest) (values ++ [V.int x]) 0 shape hterm hskip]
    rw [ih y rank fuel rest (values ++ [V.int x]) 0 shape hrest hrk]
    simp only [List.map_cons, List.append_assoc, List.singleton_append]

/-- The rune loop with no input left hands over to the post-loop phase. -/
theorem scanLoopF_nil (rank : Int) (fuel : Nat) (values : List V) (c : Nat)
    (shape : List Nat) :
    scanLoopF rank (fuel + 1) [] values c shape = finishScan rank values shape := rfl

/-- A closing `]` after at least one value, with no rank requested and no
shape inferred yet, records the axis of all values read and the next step
finishes the scan. -/
theorem scan_rbracket_step (fuel : Nat) (values : List V)
    (hv : values.isEmpty = false) :
    scanLoopF (-1) (fuel + 2) [']'] values 0 [] =
      finishScan (-1) values [values.length] := by
  show scanLoopF (-1) ((fuel + 1) + 1) (']' :: []) values 0 [] = _
  simp only [scanLoopF]
  rw [if_pos (show (']' = '\n' ∨ ']' = ';' ∨ True) from Or.inr (Or.inr trivial))]
  rw [if_neg (show ¬(values.isEmpty = true) from by simp [hv])]
  rw [if_neg (show ¬((((0:Nat) : Int)) + 1 = (-1 : Int)) from by decide)]
  rw [if_pos (show 0 + 1 > ([] : List Nat).length from by decide)]
  rw [if_pos (show True from trivial)]

/-- `finishScan` with at least one value applies the fill loop at the
effective rank. -/
theorem finishScan_eq (rank : Int) (values : List V) (shape : List Nat)
    (h1 : values.isEmpty = false) (rank2 : Int)
    (h2 : rank2 = if rank < 0 then
        (if shapeProd shape = values.length then (shape.length : Int) - 1
         else (shape.length : Int)) else rank) :
    finishScan rank values shape =
      Except.map (fun s => V.mixed s values)
        (fillLoopF rank2 values.length ((rank2 + 1).toNat + 1) 0 shape) := by
  subst h2
  unfold finishScan
  rw [if_neg (show ¬(values.isEmpty = true) from by simp [h1])]

/-- The fill loop stops as soon as `i` exceeds `rank - len(shape)`. -/
theorem fillLoopF_stop (rank : Int) (nvals fuel i : Nat) (shape : List Nat)
    (h : ¬((i : Int) ≤ rank - shape.length)) :
    fillLoopF rank nvals (fuel + 1) i shape = .ok shape := by
  simp only [fillLoopF]
  rw [if_neg h]

/-- One productive step of the fill loop. -/
theorem fillLoopF_step (rank : Int) (nvals fuel i : Nat) (shape : List Nat)
    (h : (i : Int) ≤ rank - shape.length)
    (herr : ¬(shape.length ≠ 0 ∧ shapeProd shape = 0))
    (hchk : ¬(shapeProd (nvals / (if shape.length = 0 then 1 else shapeProd shape)
      :: shape) ≠ nvals)) :
    fillLoopF rank nvals (fuel + 1) i shape =
      fillLoopF rank nvals fuel (i + 1)
        (nvals / (if shape.length = 0 then 1 else shapeProd shape) :: shape) := by
  simp only [fillLoopF]
  rw [if_pos h, if_neg herr, if_neg hchk]

/-- At effective rank 0 the fill loop turns an empty inferred shape into
the one-axis shape holding every element. -/
theorem fillLoopF_fill (n : Nat) : fillLoopF 0 n 2 0 [] = .ok [n] := by
  show fillLoopF 0 n (1 + 1) 0 [] = .ok [n]
  rw [fillLoopF_step 0 n 1 0 [] (by simp) (by simp) (by simp [shapeProd])]
  show fillLoopF 0 n (0 + 1) (0 + 1) [n / 1] = .ok [n]
  rw [fillLoopF_stop 0 n 0 (0 + 1) [n / 1] (by simp)]
  simp

/-- At effective rank 0 a complete one-axis shape passes through the fill
loop unchanged. -/
theorem fillLoopF_done (n : Nat) : fillLoopF 0 n 2 0 [n] = .ok [n] := by
  show fillLoopF 0 n (1 + 1) 0 [n] = .ok [n]
  rw [fillLoopF_stop 0 n 1 0 [n] (by simp)]

/-- With no shape inferred and more than one value, `finishScan` at rank
`-1` infers the rank-1 shape. -/
theorem finishScan_noshape (values : List V) (h1 : values.isEmpty = false)
    (h2 : values.length ≠ 1) :
    finishScan (-1) values [] = .ok (V.mixed [values.length] values) := by
  have hr : (0 : Int) = if (-1 : Int) < 0 then
      (if shapeProd ([] : List Nat) = values.length then
        ((([] : List Nat).length : Nat) : Int) - 1
       else ((([] : List Nat).length : Nat) : Int)) else (-1) := by
    rw [if_pos (show (-1 : Int) < 0 from by norm_num)]
    rw [if_neg (show ¬(shapeProd ([] : List Nat) = values.length) from
      fun hc => h2 (show values.length = 1 from hc.symm))]
    simp
  rw [finishScan_eq (-1) values [] h1 0 hr]
  rw [show (((0 : Int) + 1).toNat + 1) = 2 from rfl]
  rw [fillLoopF_fill values.length]
  rfl

/-- With the one-axis shape of all values already inferred, `finishScan`
at rank `-1` keeps it. -/
theorem finishScan_oneshape (values : List V) (h1 : values.isEmpty = false) :
    finishScan (-1) values [values.length] =
      .ok (V.mixed [values.length] values) := by
  have hr : (0 : Int) = if (-1 : Int) < 0 then
      (if shapeProd [values.length] = values.length then
        ((([values.length] : List Nat).length : Nat) : Int) - 1
       else ((([values.length] : List Nat).length : Nat) : Int)) else (-1) := by
    rw [if_pos (show (-1 : Int) < 0 from by norm_num)]
    rw [if_pos (show shapeProd [values.length] = values.length from by
      simp [shapeProd])]
    simp
  rw [finishScan_eq (-1) values [values.length] h1 0 hr]
  rw [show (((0 : Int) + 1).toNat + 1) = 2 from rfl]
  rw [fillLoopF_done values.length]
  rfl

/-- `ParseArray` on the space-separated rendering of at least two
integers recovers the rank-1 array. -/
theorem scan_tab_chars (x y : Int) (t : List Int) (s : String)
    (hs : s.toList = sepChars ' ' (x :: y :: t)) :
    ParseArray s = .ok (intVec (x :: y :: t)) := by
  have hscan : ScanRankArray (-1) s = .ok (intVec (x :: y :: t)) := by
    unfold ScanRankArray
    rw [hs]
    have hlen := sepChars_length ' ' (y :: t) x
    obtain ⟨m, hm⟩ : ∃ m, (sepChars ' ' (x :: y :: t)).length =
        (2 * (y :: t).length + 1) + m := ⟨_, (Nat.add_sub_cancel' hlen).symm⟩
    have hk : (sepChars ' ' (x :: y :: t)).length + 1 =
        (m + 1) + (2 * (y :: t).length + 1) := by omega
    rw [hk]
    conv_lhs => rw [show sepChars ' ' (x :: y :: t) =
      sepChars ' ' (x :: y :: t) ++ [] from (List.append_nil _).symm]
    rw [scan_sep ' ' (by decide) (by decide) (by decide) (y :: t) x (-1) (m + 1) []
      [] 0 [] (fun c2 hc2 => by simp at hc2) (by norm_num)]
    rw [scanLoopF_nil]
    rw [List.nil_append]
    rw [finishScan_noshape ((x :: y :: t).map V.int) (by rfl)
      (by simp only [List.length_map, List.length_cons]; omega)]
    rw [List.length_map]
    rfl
  unfold ParseArray
  rw [hscan]

/-- `ParseArray` on the bracketed comma-separated rendering of at least
one integer recovers the rank-1 array. -/
theorem scan_bracket_chars (x : Int) (t : List Int) (s : String)
    (hs : s.toList = '[' :: (sepChars ',' (x :: t) ++ [']'])) :
    ParseArray s = .ok (intVec (x :: t)) := by
  have hscan : ScanRankArray (-1) s = .ok (intVec (x :: t)) := by
    unfold ScanRankArray
    rw [hs]
    have hlen := sepChars_length ',' t x
    obtain ⟨m, hm⟩ : ∃ m, (sepChars ',' (x :: t)).length =
        (2 * t.length + 1) + m := ⟨_, (Nat.add_sub_cancel' hlen).symm⟩
    have hk : ('[' :: (sepChars ',' (x :: t) ++ [']'])).length + 1 =
        (((m + 2) + (2 * t.length + 1)) + 1) := by
      simp only [List.length_cons, List.length_append, List.length_nil]
      omega
    rw [hk]
    rw [scan_skip_step (-1) ((m + 2) + (2 * t.length + 1)) '['
      (sepChars ',' (x :: t) ++ [']']) [] 0 [] (by decide) (by decide)]
    rw [scan_sep ',' (by decide) (by decide) (by decide) t x (-1) (m + 2) [']']
      [] 0 [] (fun c2 hc2 => (Option.some.inj hc2) ▸
        (show numRune ']' = false from by decide)) (by norm_num)]
    rw [List.nil_append]
    rw [scan_rbracket_step m ((x :: t).map V.int) (by rfl)]
    rw [finishScan_oneshape ((x :: t).map V.int) (by rfl)]
    rw [List.length_map]
    rfl
  unfold ParseArray
  rw [hscan]

theorem toList_append (a b : String) : (a ++ b).toList = a.toList ++ b.toList := by
  cases a
  cases b
  rfl

/-- String-level joining by a one-character separator matches the
character-level `sepChars`. -/
theorem intercalate_sep_toList (sep : Char) : ∀ (xs : List Int),
    (String.intercalate (String.mk [sep])
      (xs.map (fun x => String.mk (intLex x)))).toList = sepChars sep xs := by
  intro xs
  induction xs with
  | nil => rfl
  | cons x t ih =>
    cases t with
    | nil => rfl
    | cons y t2 =>
      rw [List.map_cons]
      rw [intercalate_cons_of_ne_nil _ _ _ (by simp)]
      rw [toList_append, toList_append]
      rw [show (String.mk (intLex x)).toList = intLex x from rfl]
      rw [show (String.mk [sep]).toList = [sep] from rfl]
      rw [ih]
      show _ = intLex x ++ sep :: sepChars sep (y :: t2)
      simp

theorem intVec_strings (pp : Int) (xs : List Int) :
    (xs.map V.int).map (vString ⟨pp, []⟩) = xs.map (fun x => String.mk (intLex x)) := by
  rw [List.map_map]
  apply List.map_congr_left
  intro x _
  show String.mk (intString ⟨pp, []⟩ x) = String.mk (intLex x)
  rw [intString_no_fmt]

/-- The tab rendering (`PP = -1`) of a rank-1 integer array is the
elements' decimal forms joined by single spaces. -/
theorem tab_chars (xs : List Int) :
    (vString fmtTab (intVec xs)).toList = sepChars ' ' xs := by
  rw [show fmtTab = (⟨-1, []⟩ : Format) from rfl]
  rw [show intVec xs = V.mixed [xs.length] (xs.map V.int) from rfl]
  rw [vString_mixed, intVec_strings]
  unfold ArrayString
  rw [if_neg (show ¬((⟨-1, []⟩ : Format).PP = -2) from by decide)]
  rw [if_neg (show ¬((⟨-1, []⟩ : Format).PP = -3) from by decide)]
  show (String.intercalate " " ((List.range xs.length).map
      (fun i => (xs.map (fun x => String.mk (intLex x))).getD i ""))).toList = _
  have hl : (xs.map (fun x => String.mk (intLex x))).length = xs.length :=
    List.length_map xs _
  have key : (List.range xs.length).map
      (fun i => (xs.map (fun x => String.mk (intLex x))).getD i "") =
      xs.map (fun x => String.mk (intLex x)) := by
    conv_lhs => rw [← hl]
    exact range_getD_self _ _
  rw [key]
  rw [show (" " : String) = String.mk [' '] from rfl]
  exact intercalate_sep_toList ' ' xs

/-- The json rendering (`PP = -2`) of a rank-1 integer array is the
bracketed comma-joined decimal forms. -/
theorem json_chars (xs : List Int) :
    (vString fmtJson (intVec xs)).toList = '[' :: (sepChars ',' xs ++ [']']) := by
  rw [show fmtJson = (⟨-2, []⟩ : Format) from rfl]
  rw [show intVec xs = V.mixed [xs.length] (xs.map V.int) from rfl]
  rw [vString_mixed, intVec_strings]
  unfold ArrayString
  rw [if_pos (show (⟨-2, []⟩ : Format).PP = -2 from rfl)]
  show ("[" ++ String.intercalate ","
      ((xs.map (fun x => String.mk (intLex x))).take xs.length) ++ "]").toList = _
  have hl : (xs.map (fun x => String.mk (intLex x))).length = xs.length :=
    List.length_map xs _
  rw [show (xs.map (fun x => String.mk (intLex x))).take xs.length =
      xs.map (fun x => String.mk (intLex x)) from by
    conv_lhs => rw [← hl]
    exact List.take_length _]
  rw [toList_append, toList_append]
  rw [show ("[" : String).toList = ['['] from rfl]
  rw [show ("]" : String).toList = [']'] from rfl]
  rw [show ("," : String) = String.mk [','] from rfl]
  rw [intercalate_sep_toList]
  simp

/-- The matlab rendering (`PP = -3`) of a rank-1 integer array is the
bracketed comma-joined decimal forms. -/
theorem mat_chars (xs : List Int) :
    (vString fmtMat (intVec xs)).toList = '[' :: (sepChars ',' xs ++ [']']) := by
  rw [show fmtMat = (⟨-3, []⟩ : Format) from rfl]
  rw [show intVec xs = V.mixed [xs.length] (xs.map V.int) from rfl]
  rw [vString_mixed, intVec_strings]
  unfold ArrayString
  rw [if_neg (show ¬((⟨-3, []⟩ : Format).PP = -2) from by decide)]
  rw [if_pos (show (⟨-3, []⟩ : Format).PP = -3 from rfl)]
  unfold matArrayS
  rw [if_pos (show (StringArr.mk [xs.length]
    (xs.map (fun x => String.mk (intLex x)))).Dims.length = 1 from rfl)]
  show ("[" ++ String.intercalate ","
      (xs.map (fun x => String.mk (intLex x))) ++ "]").toList = _
  rw [toList_append, toList_append]
  rw [show ("[" : String).toList = ['['] from rfl]
  rw [show ("]" : String).toList = [']'] from rfl]
  rw [show ("," : String) = String.mk [','] from rfl]
  rw [intercalate_sep_toList]
  simp

/-- C1 (amended): nonempty rank-1 integer arrays round-trip through
formatting and `ParseArray`: the json (`PP = -2`) and matlab (`PP = -3`)
renderings parse back to the original array whenever it has at least one
element, and the default tab rendering (`PP = -1`) does whenever it has at
least two elements (a single space-joined element carries no shape). -/
theorem roundtrip_rank1 (xs : List Int) :
    (2 ≤ xs.length → ParseArray (vString fmtTab (intVec xs)) = .ok (intVec xs)) ∧
    (1 ≤ xs.length → ParseArray (vString fmtJson (intVec xs)) = .ok (intVec xs)) ∧
    (1 ≤ xs.length → ParseArray (vString fmtMat (intVec xs)) = .ok (intVec xs)) := by
  refine ⟨?_, ?_, ?_⟩
  · intro h
    cases xs with
    | nil => simp at h
    | cons x t =>
      cases t with
      | nil => simp at h
      | cons y t2 => exact scan_tab_chars x y t2 _ (tab_chars (x :: y :: t2))
  · intro h
    cases xs with
    | nil => simp at h
    | cons x t => exact scan_bracket_chars x t _ (json_chars (x :: t))
  · intro h
    cases xs with
    | nil => simp at h
    | cons x t => exact scan_bracket_chars x t _ (mat_chars (x :: t))

/-- C1 (witness): the two-element vector `7 ¯3` round-trips in all three
modes. -/
theorem roundtrip_rank1_witness :
    (2 ≤ ([7, -3] : List Int).length) ∧
    ParseArray (vString fmtTab (intVec [7, -3])) = .ok (intVec [7, -3]) ∧
    ParseArray (vString fmtJson (intVec [7, -3])) = .ok (intVec [7, -3]) ∧
    ParseArray (vString fmtMat (intVec [7, -3])) = .ok (intVec [7, -3]) :=
  ⟨by decide,
   (roundtrip_rank1 [7, -3]).1 (by decide),
   (roundtrip_rank1 [7, -3]).2.1 (by decide),
   (roundtrip_rank1 [7, -3]).2.2 (by decide)⟩

end apl
